import Mathlib

/-!
Package gocausal / rootfinding: a shallow embedding of `simplex.go`

The Go package `rootfinding` implements a derivative-free root finder
(`SimplexRoots`) built from a sign-pattern lookup table and a midpoint step.

Modelling conventions used throughout this file.

* `float64` is idealised as `ℚ` (exact arithmetic, no NaN, no rounding); the
  constants `TOL` and `MAX_ITERS` are the ones of `simplex.go`.
* Go compares a `float64` with the constant `1e-16` after converting the
  constant to `float64`.  `TOL64` is that `float64`, as a rational; the
  definitions whose name ends in `_at` are the step and the driver with the
  tolerance as a parameter, and they are the plain ones at `TOL`.  They are
  used where a squared magnitude meets the tolerance exactly, on an input on
  which every `float64` operation of the run is exact.
* `mat.Vector` is a `List ℚ`; `mat.Matrix` is the interface `Dims`/`At`.
  The gonum calls are total list functions here: gonum's panics (index out of
  range, zero-length allocation, dimension mismatch) are outside the model.
* A Go `int` is its 64-bit two's-complement bit pattern, a `Nat` below `2^64`;
  `asInt64` gives the signed value that `<=` compares.
* `map[int]FunctionCall` is an association list with distinct keys.  The order
  in which `range` yields the keys is not fixed by Go, so it is an explicit
  input (`RangeOracle`), as are the outcomes of `rand.Intn(2)`.
* The caller-supplied `f` is a pure function returning `Except String`.
* `SimplexRootsRun` is `SimplexRoots` instrumented with two ghost fields: the
  list of points at which `f` was called and the number of calls of
  `iterative_simplex_roots`.
-/

namespace Rootfinding

/-! ## Data model (`function_definitions.go`) -/

/-- A `mat.Vector`. -/
abbrev Vec := List ℚ

/-- The interface `mat.Matrix`, restricted to `Dims` and `At`. -/
structure Matrix where
  rows : Nat
  cols : Nat
  At : Nat → Nat → ℚ

/-- Row-major dense matrix, as built by `mat.NewDense r c data`. -/
def NewDense (r c : Nat) (data : List ℚ) : Matrix :=
  ⟨r, c, fun i j => data.getD (i * c + j) 0⟩

/-- Go type `VectorValuedFunction`: a vector or an evaluation failure. -/
abbrev VectorValuedFunction := Vec → Except String Vec

/-- Go struct `FunctionCall`. -/
structure FunctionCall where
  mag : ℚ
  vec : Vec
deriving DecidableEq, Repr

/-- Go `map[int]FunctionCall`. -/
abbrev Table := List (Nat × FunctionCall)

/-- The errors `SimplexRoots` can return. -/
inductive Error where
  /-- Message "number of rows not equal to initial condition length". -/
  | rowsMismatch
  /-- Message "number of columns not equal to 2, corresponding to the
  bounds". -/
  | colsMismatch
  /-- An error returned by the caller-supplied function, passed on unchanged. -/
  | eval (e : String)
  /-- Message "[signeval=%d min_idx=%d min_value=%d]lookup table should be
  pre-populated with at least one value", with its three arguments. -/
  | emptyLookup (signeval min_idx min_value : Nat)
  /-- Message "minimum tolerance not reached within number of iterations". -/
  | notConverged
deriving DecidableEq, Repr

/-! ## Constants -/

/-- Go constant `MAX_ITERS`. -/
def MAX_ITERS : Nat := 10000

/-- Go constant `TOL = 1e-16`. -/
def TOL : ℚ := 1 / 10 ^ 16

/-! ## Go `int` as a 64-bit pattern -/

/-- Signed value of a 64-bit pattern. -/
def asInt64 (w : Nat) : Int :=
  if w < 2 ^ 63 then (w : Int) else (w : Int) - 2 ^ 64

/-- Go `1 << i` on `int`. -/
def shl1 (i : Nat) : Nat := 2 ^ i % 2 ^ 64

/-- Go `-1` as an `int`. -/
def minusOne : Nat := 2 ^ 64 - 1

/-! ## Map primitives -/

/-- Go `elem, ok := lt[k]`. -/
def tlookup : Table → Nat → Option FunctionCall
  | [], _ => none
  | (k', v) :: rest, k => if k' = k then some v else tlookup rest k

/-- Go `lt[k] = v`. -/
def tstore : Table → Nat → FunctionCall → Table
  | [], k, v => [(k, v)]
  | (k', v') :: rest, k, v =>
    if k' = k then (k, v) :: rest else (k', v') :: tstore rest k v

/-- The keys held by a table. -/
def keys (lt : Table) : List Nat := lt.map Prod.fst

/-- One `for k := range lookup_table`: some enumeration of the keys. -/
def RangeOracle : Type :=
  { r : Table → List Nat // ∀ lt, (r lt).Perm (keys lt) }

/-- The enumeration that follows the association list. -/
def inOrder : RangeOracle := ⟨keys, fun _ => List.Perm.refl _⟩

/-! ## `simplex.go` -/

/-- Go `SquaredMagnitude`. -/
def SquaredMagnitude (arr : Vec) : ℚ :=
  (List.range arr.length).foldl
    (fun mag i => mag + arr.getD i 0 * arr.getD i 0) 0

/-- Go `sign_int`. -/
def sign_int (arr : Vec) : Nat :=
  (List.range arr.length).foldl
    (fun result i => if arr.getD i 0 > 0 then result ||| shl1 i else result) 0

/-- Go `opposite_sign_int`. -/
def opposite_sign_int (arr : Vec) : Nat :=
  (List.range arr.length).foldl
    (fun result i => if arr.getD i 0 ≤ 0 then result ||| shl1 i else result) 0

/-- Go `insert_into_lookup_table`. -/
def insert_into_lookup_table (lt : Table) (res : Vec) (sign : Nat)
    (magnitude : ℚ) : Table :=
  match tlookup lt sign with
  | none => tstore lt sign ⟨magnitude, res⟩
  | some elem =>
    if elem.mag ≥ magnitude then tstore lt sign ⟨magnitude, res⟩ else lt

/-- The fallback scan of `iterative_simplex_roots` (lines 82-87): the loop
state is `(min_idx, min_value)`. -/
def fallbackScan (sign_eval : Nat) (ks : List Nat) (start : Nat × Nat) :
    Nat × Nat :=
  ks.foldl
    (fun st k =>
      if asInt64 (sign_eval ^^^ k) ≤ asInt64 st.2 then (k, sign_eval ^^^ k)
      else st)
    start

/-- Lines 96-102 of `iterative_simplex_roots`: `(x + opposite.vec) / 2`,
element by element. -/
def midpoint (x opp : Vec) : Vec :=
  (List.zipWith (fun a b => a + b) x opp).map (fun a => a / 2)

/-- Go `iterative_simplex_roots`.  On success the triple is
`(magnitude, next_cond, next_lookup_table)`; on failure only the error is
kept, the caller discards the other results. -/
def iterative_simplex_roots (range : RangeOracle) (f : VectorValuedFunction)
    (x : Vec) (lookup_table : Table) : Except Error (ℚ × Vec × Table) :=
  match f x with
  | .error e => .error (.eval e)
  | .ok eval =>
    let sign_eval := sign_int eval
    let squared_magnitude_eval := SquaredMagnitude eval
    let lookup_table :=
      insert_into_lookup_table lookup_table x sign_eval squared_magnitude_eval
    if squared_magnitude_eval < TOL then
      .ok (squared_magnitude_eval, x, lookup_table)
    else
      match tlookup lookup_table (opposite_sign_int eval) with
      | some opposite =>
        .ok (squared_magnitude_eval, midpoint x opposite.vec, lookup_table)
      | none =>
        let st := fallbackScan sign_eval (range.1 lookup_table)
          (minusOne, opposite_sign_int eval)
        match tlookup lookup_table st.1 with
        | some opposite =>
          .ok (squared_magnitude_eval, midpoint x opposite.vec, lookup_table)
        | none => .error (.emptyLookup sign_eval st.1 st.2)

/-- Go `mat.Col(dst, j, m)`. -/
def Col (j : Nat) (m : Matrix) : Vec :=
  (List.range m.rows).map (fun i => m.At i j)

/-- The inner `for j` loop of the seeding (lines 129-140) for one `i`:
returns `lower_eval`, `upper_eval` and the number of random draws consumed so
far.  `rnd k % 2` is the outcome of the `k`-th call of `rand.Intn(2)`. -/
def cornerPair (rnd : Nat → Nat) (bounds : Matrix) (length i k : Nat) :
    Vec × Vec × Nat :=
  (List.range length).foldl
    (fun st j =>
      if i = j then st
      else
        let random_lower := rnd st.2.2 % 2
        let random_upper := rnd (st.2.2 + 1) % 2
        (st.1.set j (bounds.At j random_lower),
         st.2.1.set j (bounds.At j random_upper),
         st.2.2 + 2))
    (Col 0 bounds, Col 1 bounds, k)

/-- What one call of `SimplexRoots` did: the returned value, the points at
which `f` was called (in call order) and how many times
`iterative_simplex_roots` was invoked. -/
structure Run where
  result : Except Error Vec
  evals : List Vec
  steps : Nat

/-- The outer `for i` loop of the seeding (lines 128-158), over the remaining
indices `is`; `k` counts the random draws made, `log` the calls of `f`. -/
def seedLoop (rnd : Nat → Nat) (f : VectorValuedFunction) (bounds : Matrix)
    (length : Nat) :
    List Nat → Nat → Table → List Vec → Except Error Table × List Vec
  | [], _, lookup_table, log => (.ok lookup_table, log)
  | i :: is, k, lookup_table, log =>
    let c := cornerPair rnd bounds length i k
    match f c.1 with
    | .error e => (.error (.eval e), log ++ [c.1])
    | .ok lower_res =>
      let lookup_table := insert_into_lookup_table lookup_table c.1
        (sign_int lower_res) (SquaredMagnitude lower_res)
      match f c.2.1 with
      | .error e => (.error (.eval e), log ++ [c.1, c.2.1])
      | .ok upper_res =>
        let lookup_table := insert_into_lookup_table lookup_table c.2.1
          (sign_int upper_res) (SquaredMagnitude upper_res)
        seedLoop rnd f bounds length is c.2.2 lookup_table
          (log ++ [c.1, c.2.1])

/-- Lines 175-179 of `SimplexRoots`. -/
def finish (squared_magnitude_output : ℚ) (next_conditions : Vec) :
    Except Error Vec :=
  if squared_magnitude_output > TOL then .error .notConverged
  else .ok next_conditions

/-- The driver loop (lines 166-173).  The first argument is
`MAX_ITERS - iters`, so `iters < MAX_ITERS` is the successor case. -/
def driverLoop (range : Nat → RangeOracle) (f : VectorValuedFunction) :
    Nat → Nat → ℚ → Vec → Table → List Vec → Run
  | 0, iters, squared_magnitude_output, next_conditions, _, log =>
    ⟨finish squared_magnitude_output next_conditions, log, iters⟩
  | left + 1, iters, squared_magnitude_output, next_conditions, lookup_table,
      log =>
    if squared_magnitude_output > TOL then
      match iterative_simplex_roots (range iters) f next_conditions
          lookup_table with
      | .error e => ⟨.error e, log ++ [next_conditions], iters + 1⟩
      | .ok r =>
        driverLoop range f left (iters + 1) r.1 r.2.1 r.2.2
          (log ++ [next_conditions])
    else ⟨finish squared_magnitude_output next_conditions, log, iters⟩

/-- Go `SimplexRoots`, instrumented. -/
def SimplexRootsRun (rnd : Nat → Nat) (range : Nat → RangeOracle)
    (f : VectorValuedFunction) (initial_conditions : Vec) (bounds : Matrix) :
    Run :=
  let length := initial_conditions.length
  if bounds.rows ≠ length then ⟨.error .rowsMismatch, [], 0⟩
  else if bounds.cols ≠ 2 then ⟨.error .colsMismatch, [], 0⟩
  else
    match f initial_conditions with
    | .error e => ⟨.error (.eval e), [initial_conditions], 0⟩
    | .ok output =>
      match seedLoop rnd f bounds length (List.range length) 0 []
          [initial_conditions] with
      | (.error e, log) => ⟨.error e, log, 0⟩
      | (.ok lookup_table, log) =>
        driverLoop range f MAX_ITERS 0 (SquaredMagnitude output)
          initial_conditions lookup_table log

/-- Go `SimplexRoots`. -/
def SimplexRoots (rnd : Nat → Nat) (range : Nat → RangeOracle)
    (f : VectorValuedFunction) (initial_conditions : Vec) (bounds : Matrix) :
    Except Error Vec :=
  (SimplexRootsRun rnd range f initial_conditions bounds).result

/-! ## The functions of `simplex_test.go` -/

/-- Go `test_1d`. -/
def test_1d : VectorValuedFunction := fun x =>
  let num := x.getD 0 0
  .ok [num * num - 4]

/-- Go `test_2d_independent`. -/
def test_2d_independent : VectorValuedFunction := fun x =>
  let x0 := x.getD 0 0
  let x1 := x.getD 1 0
  .ok [x0 * x0 - x0 - 6, x1 ^ 3 - 2 * x1 ^ 2 - 19 * x1 + 20]

/-- Go `test_2d_dependent`. -/
def test_2d_dependent : VectorValuedFunction := fun x =>
  let x0 := x.getD 0 0
  let x1 := x.getD 1 0
  .ok [x0 * x0 * x1 - 12, x1 - x0 - 1]

/-- Equality of Go results (value or error) is decidable. -/
instance instDecidableEqExcept {ε α : Type} [DecidableEq ε] [DecidableEq α] :
    DecidableEq (Except ε α) := fun a b =>
  match a, b with
  | .ok x, .ok y =>
    if h : x = y then isTrue (by rw [h])
    else isFalse (by intro h2; cases h2; exact h rfl)
  | .error x, .error y =>
    if h : x = y then isTrue (by rw [h])
    else isFalse (by intro h2; cases h2; exact h rfl)
  | .ok _, .error _ => isFalse (by intro h; cases h)
  | .error _, .ok _ => isFalse (by intro h; cases h)

/-- All keys of a table are non-negative Go ints. -/
def KeysOK (lt : Table) : Prop := ∀ k ∈ keys lt, k < 2 ^ 63

/-- Every output of `f` has fewer than 64 components. -/
def SmallDim (f : VectorValuedFunction) : Prop :=
  ∀ x v, f x = .ok v → v.length < 64

/-- An example function: `test_1d`, undefined at `11/2`. -/
def failAt : VectorValuedFunction := fun x =>
  if x.getD 0 0 = 11 / 2 then .error "undefined" else test_1d x

/-- Random outcomes `0, 1, 0, 0, 0, ...` of `rand.Intn(2)`. -/
def draws0100 : Nat → Nat := fun k => if k = 1 then 1 else 0

/-- Random outcomes `0, 0, 0, 1, 0, ...` of `rand.Intn(2)`. -/
def draws0001 : Nat → Nat := fun k => if k = 3 then 1 else 0

/-- The table seeded for `test_2d_independent` under `draws0100`. -/
def seededIndep : Table :=
  [(2, ⟨24433 / 64, [-1, -7 / 2]⟩), (1, ⟨502209 / 64, [10, 7 / 2]⟩),
   (0, ⟨51649 / 64, [-1, 7 / 2]⟩)]

/-- The table seeded for `test_2d_dependent` under `draws0001`. -/
def seededDep : Table :=
  [(0, ⟨145, [0, 0]⟩), (1, ⟨2944657, [12, 12]⟩)]

/-- The constant function with value `c`. -/
def constF (c : Vec) : VectorValuedFunction := fun _ => .ok c

/-- Every key of the table is the signature `s`. -/
def KeysAre (s : Nat) (lt : Table) : Prop := ∀ k ∈ keys lt, k = s

/-- The magnitude tracked by the driver is that of `f` at some point `y`, and
the candidate `x` is that point whenever the magnitude is below `TOL`. -/
def Tracked (f : VectorValuedFunction) (mag : ℚ) (x : Vec) : Prop :=
  ∃ y v, f y = .ok v ∧ mag = SquaredMagnitude v ∧ (mag < TOL → x = y)

/-- What holds of a returned point: its image is within tolerance, or some
evaluated point had a squared magnitude of exactly `TOL`. -/
def SoundOrBoundary (f : VectorValuedFunction) (xs : Vec) : Prop :=
  (∃ v, f xs = .ok v ∧ SquaredMagnitude v ≤ TOL)
    ∨ ∃ y v, f y = .ok v ∧ SquaredMagnitude v = TOL

/-- Every logged call of `f` succeeded. -/
def AllOk (f : VectorValuedFunction) (log : List Vec) : Prop :=
  ∀ p ∈ log, ∃ v, f p = .ok v

/-- The log of a run is coherent with its result: either every logged call of
`f` succeeded, or the last logged call failed, every earlier one succeeded and
the result is that failure. -/
def LogCoherent (f : VectorValuedFunction) (log : List Vec)
    (result : Except Error Vec) : Prop :=
  AllOk f log ∨
    ∃ pre p e, log = pre ++ [p] ∧ AllOk f pre ∧ f p = .error e
      ∧ result = .error (.eval e)

/-- Spec glossary, "Hamming/XOR distance": the number of bits in which two
signatures differ (over the 64 bits of a Go int). -/
def specXorDistance (a b : Nat) : Nat :=
  ((List.range 64).filter (fun i => (a ^^^ b).testBit i)).length

/-- The identity on two-dimensional vectors. -/
def id2 : VectorValuedFunction := fun x => .ok [x.getD 0 0, x.getD 1 0]

/-- A vector with 64 components: 63 times `1`, then `-1`. -/
def c64 : Vec := List.replicate 63 1 ++ [-1]

/-- The opposite signature of every output of `f` is a non-negative Go int:
the output has fewer than 64 components, or its component 63 is positive. -/
def OppositeNonneg (f : VectorValuedFunction) : Prop :=
  ∀ x v, f x = .ok v → v.length < 64 ∨ 0 < v.getD 63 0

/-- A vector with 64 components, all `-1`. -/
def allNeg64 : Vec := List.replicate 64 (-1)

/-- The table that seeding leaves for the constant function `allNeg64` on the
bounds `0 <= x[i] <= 0`. -/
def seededNeg64 : Table := [(0, ⟨64, List.replicate 64 0⟩)]

/-- A coordinate value that is one of the two bounds of dimension `j`. -/
def AtBound (bounds : Matrix) (j : Nat) (a : ℚ) : Prop :=
  a = bounds.At j 0 ∨ a = bounds.At j 1

/-- What the inner seeding loop maintains for the pair `(lower_eval,
upper_eval)` of dimension `i`: both have one coordinate per row, coordinate
`i` is the lower, resp. the upper bound, and every coordinate is one of its two
bounds. -/
def CornerInv (bounds : Matrix) (i : Nat) (lo up : Vec) : Prop :=
  lo.length = bounds.rows ∧ up.length = bounds.rows
    ∧ (i < bounds.rows →
        lo.getD i 0 = bounds.At i 0 ∧ up.getD i 0 = bounds.At i 1)
    ∧ ∀ j, j < bounds.rows →
        AtBound bounds j (lo.getD j 0) ∧ AtBound bounds j (up.getD j 0)

/-- The corners the seeding loop evaluates, in order, over the remaining
indices `is` with `k` random draws made so far. -/
def seedCorners (rnd : Nat → Nat) (bounds : Matrix) (length : Nat) :
    List Nat → Nat → List Vec
  | [], _ => []
  | i :: is, k =>
    (cornerPair rnd bounds length i k).1
      :: (cornerPair rnd bounds length i k).2.1
      :: seedCorners rnd bounds length is (cornerPair rnd bounds length i k).2.2

/-- Lines 147-149 of `SimplexRoots` for a function `g` that does not fail:
insert the corner `c` under the signature of its image with its squared
magnitude. -/
def insertEval (g : Vec → Vec) (lt : Table) (c : Vec) : Table :=
  insert_into_lookup_table lt c (sign_int (g c)) (SquaredMagnitude (g c))

/-- The point `p` has one coordinate per row of `bounds` and each lies between
the lower and the upper bound of its row. -/
def InBox (bounds : Matrix) (p : Vec) : Prop :=
  p.length = bounds.rows
    ∧ ∀ i, i < bounds.rows →
        bounds.At i 0 ≤ p.getD i 0 ∧ p.getD i 0 ≤ bounds.At i 1

/-- Every point stored in the table lies in the box. -/
def TableInBox (bounds : Matrix) (lt : Table) : Prop :=
  ∀ e ∈ lt, InBox bounds e.2.vec

/-- The `float64` nearest to `1e-16`, which is what Go compares a `float64`
with when the source says `TOL`: `0x1.cd2b297d889bcp-54`. -/
def TOL64 : ℚ := 2028240960365167 / 2 ^ 104

/-- Go `iterative_simplex_roots`, as `iterative_simplex_roots` above, with the
tolerance as a parameter. -/
def iterative_simplex_roots_at (tol : ℚ) (range : RangeOracle)
    (f : VectorValuedFunction) (x : Vec) (lookup_table : Table) :
    Except Error (ℚ × Vec × Table) :=
  match f x with
  | .error e => .error (.eval e)
  | .ok eval =>
    let sign_eval := sign_int eval
    let squared_magnitude_eval := SquaredMagnitude eval
    let lookup_table :=
      insert_into_lookup_table lookup_table x sign_eval squared_magnitude_eval
    if squared_magnitude_eval < tol then
      .ok (squared_magnitude_eval, x, lookup_table)
    else
      match tlookup lookup_table (opposite_sign_int eval) with
      | some opposite =>
        .ok (squared_magnitude_eval, midpoint x opposite.vec, lookup_table)
      | none =>
        let st := fallbackScan sign_eval (range.1 lookup_table)
          (minusOne, opposite_sign_int eval)
        match tlookup lookup_table st.1 with
        | some opposite =>
          .ok (squared_magnitude_eval, midpoint x opposite.vec, lookup_table)
        | none => .error (.emptyLookup sign_eval st.1 st.2)

/-- Lines 175-179 of `SimplexRoots`, with the tolerance as a parameter. -/
def finish_at (tol : ℚ) (squared_magnitude_output : ℚ)
    (next_conditions : Vec) : Except Error Vec :=
  if squared_magnitude_output > tol then .error .notConverged
  else .ok next_conditions

/-- The driver loop (lines 166-173), as `driverLoop` above, with the tolerance
as a parameter. -/
def driverLoop_at (tol : ℚ) (range : Nat → RangeOracle)
    (f : VectorValuedFunction) :
    Nat → Nat → ℚ → Vec → Table → List Vec → Run
  | 0, iters, squared_magnitude_output, next_conditions, _, log =>
    ⟨finish_at tol squared_magnitude_output next_conditions, log, iters⟩
  | left + 1, iters, squared_magnitude_output, next_conditions, lookup_table,
      log =>
    if squared_magnitude_output > tol then
      match iterative_simplex_roots_at tol (range iters) f next_conditions
          lookup_table with
      | .error e => ⟨.error e, log ++ [next_conditions], iters + 1⟩
      | .ok r =>
        driverLoop_at tol range f left (iters + 1) r.1 r.2.1 r.2.2
          (log ++ [next_conditions])
    else ⟨finish_at tol squared_magnitude_output next_conditions, log, iters⟩

/-- Go `SimplexRoots`, instrumented, as `SimplexRootsRun` above, with the
tolerance as a parameter. -/
def SimplexRootsRun_at (tol : ℚ) (rnd : Nat → Nat) (range : Nat → RangeOracle)
    (f : VectorValuedFunction) (initial_conditions : Vec) (bounds : Matrix) :
    Run :=
  let length := initial_conditions.length
  if bounds.rows ≠ length then ⟨.error .rowsMismatch, [], 0⟩
  else if bounds.cols ≠ 2 then ⟨.error .colsMismatch, [], 0⟩
  else
    match f initial_conditions with
    | .error e => ⟨.error (.eval e), [initial_conditions], 0⟩
    | .ok output =>
      match seedLoop rnd f bounds length (List.range length) 0 []
          [initial_conditions] with
      | (.error e, log) => ⟨.error e, log, 0⟩
      | (.ok lookup_table, log) =>
        driverLoop_at tol range f MAX_ITERS 0 (SquaredMagnitude output)
          initial_conditions lookup_table log

/-- Go `SimplexRoots`, with the tolerance as a parameter. -/
def SimplexRoots_at (tol : ℚ) (rnd : Nat → Nat) (range : Nat → RangeOracle)
    (f : VectorValuedFunction) (initial_conditions : Vec) (bounds : Matrix) :
    Except Error Vec :=
  (SimplexRootsRun_at tol rnd range f initial_conditions bounds).result

/-- A function of four variables: `x - 3` in every coordinate, except at
`(5/2, 5/2, 5/2, 5/2)`, where its value is
`(45035995, 10709, 206, 5) * 2^-52`.  The squares of these four `float64` and
their running sums are `float64` (integers below `2^51` times `2^-104`), and
they add up to `TOL64`. -/
def boundary4 : VectorValuedFunction := fun x =>
  if x = [5 / 2, 5 / 2, 5 / 2, 5 / 2] then
    .ok [45035995 / 2 ^ 52, 10709 / 2 ^ 52, 206 / 2 ^ 52, 5 / 2 ^ 52]
  else .ok [x.getD 0 0 - 3, x.getD 1 0 - 3, x.getD 2 0 - 3, x.getD 3 0 - 3]

/-- The bounds `0 <= x[i] <= 4` in four dimensions. -/
def box4 : Matrix := NewDense 4 2 [0, 4, 0, 4, 0, 4, 0, 4]

/-- The enumeration of the keys in the reverse order of the association
list. -/
def reverseOrder : RangeOracle :=
  ⟨fun lt => (keys lt).reverse, fun lt => List.reverse_perm (keys lt)⟩

/-- A table holding one entry under the key `-1` (all 64 bits set). -/
def negKeyTable : Table := [(minusOne, ⟨1, [5]⟩)]

/-- Every point stored in the table has `n` coordinates. -/
def TableLen (n : Nat) (lt : Table) : Prop := ∀ e ∈ lt, e.2.vec.length = n

/-! ## Loops over `List.range` -/

theorem foldl_range_succ {β : Type} (g : β → Nat → β) (init : β) (n : Nat) :
    (List.range (n + 1)).foldl g init = g ((List.range n).foldl g init) n := by
  rw [List.range_succ, List.foldl_append]
  rfl

theorem sq_fold (arr : Vec) (n : Nat) :
    (List.range n).foldl (fun mag i => mag + arr.getD i 0 * arr.getD i 0) 0
      = ∑ i ∈ Finset.range n, (arr.getD i 0) ^ 2 := by
  induction n with
  | zero => simp
  | succ n ih =>
    rw [foldl_range_succ, ih, Finset.sum_range_succ]
    ring

theorem SquaredMagnitude_eq_sum (v : Vec) :
    SquaredMagnitude v = ∑ i ∈ Finset.range v.length, (v.getD i 0) ^ 2 :=
  sq_fold v v.length

theorem SquaredMagnitude_nonneg (v : Vec) : 0 ≤ SquaredMagnitude v := by
  rw [SquaredMagnitude_eq_sum]
  exact Finset.sum_nonneg (fun i _ => sq_nonneg _)

/-! ## Signatures, bit by bit -/

theorem shl1_testBit (i b : Nat) :
    (shl1 i).testBit b = (decide (b < 64) && decide (i = b)) := by
  unfold shl1
  rw [Nat.testBit_mod_two_pow, Nat.testBit_two_pow]

theorem sign_fold_testBit (p : ℚ → Prop) [DecidablePred p] (arr : Vec)
    (n b : Nat) :
    ((List.range n).foldl
        (fun result i => if p (arr.getD i 0) then result ||| shl1 i else result)
        0).testBit b
      = decide (b < n ∧ b < 64 ∧ p (arr.getD b 0)) := by
  induction n with
  | zero => simp
  | succ n ih =>
    rw [foldl_range_succ]
    by_cases hp : p (arr.getD n 0)
    · rw [if_pos hp, Nat.testBit_or, ih, shl1_testBit]
      by_cases hb : n = b
      · subst hb
        by_cases h64 : n < 64 <;> simp [-List.getD_eq_getElem?_getD, hp, h64]
      · have h1 : b < n + 1 ↔ b < n := by omega
        simp [-List.getD_eq_getElem?_getD, hb, h1]
    · rw [if_neg hp, ih]
      by_cases hb : n = b
      · subst hb
        simp [-List.getD_eq_getElem?_getD, hp]
      · have h1 : b < n + 1 ↔ b < n := by omega
        simp [-List.getD_eq_getElem?_getD, h1]

theorem sign_int_testBit (v : Vec) (b : Nat) :
    (sign_int v).testBit b
      = decide (b < v.length ∧ b < 64 ∧ v.getD b 0 > 0) :=
  sign_fold_testBit (fun a => a > 0) v v.length b

theorem opposite_sign_int_testBit (v : Vec) (b : Nat) :
    (opposite_sign_int v).testBit b
      = decide (b < v.length ∧ b < 64 ∧ v.getD b 0 ≤ 0) :=
  sign_fold_testBit (fun a => a ≤ 0) v v.length b

theorem sign_int_lt (v : Vec) (n : Nat) (h : v.length ≤ n) :
    sign_int v < 2 ^ n := by
  apply Nat.lt_pow_two_of_testBit
  intro i hi
  rw [sign_int_testBit]
  have : ¬ i < v.length := by omega
  simp [this]

theorem opposite_sign_int_lt (v : Vec) (n : Nat) (h : v.length ≤ n) :
    opposite_sign_int v < 2 ^ n := by
  apply Nat.lt_pow_two_of_testBit
  intro i hi
  rw [opposite_sign_int_testBit]
  have : ¬ i < v.length := by omega
  simp [this]

/-! ## The lookup table -/

theorem tlookup_tstore (lt : Table) (k : Nat) (v : FunctionCall) (k' : Nat) :
    tlookup (tstore lt k v) k' = if k = k' then some v else tlookup lt k' := by
  induction lt with
  | nil => simp [tstore, tlookup]
  | cons e rest ih =>
    obtain ⟨a, w⟩ := e
    by_cases h : a = k
    · subst h
      by_cases h2 : a = k' <;> simp [tstore, tlookup, h2]
    · by_cases h2 : a = k'
      · subst h2
        have h3 : ¬ k = a := fun h' => h h'.symm
        simp [tstore, tlookup, h, h3]
      · simp [tstore, tlookup, h, h2, ih]

theorem tlookup_eq_none_iff (lt : Table) (k : Nat) :
    tlookup lt k = none ↔ k ∉ keys lt := by
  induction lt with
  | nil => simp [tlookup, keys]
  | cons e rest ih =>
    obtain ⟨a, w⟩ := e
    by_cases h : a = k
    · subst h
      simp [tlookup, keys]
    · have h3 : ¬ k = a := fun h' => h h'.symm
      simp only [keys] at ih
      simp [tlookup, keys, h, h3, ih]

theorem mem_keys_tstore (lt : Table) (k : Nat) (v : FunctionCall) (k' : Nat) :
    k' ∈ keys (tstore lt k v) ↔ k' = k ∨ k' ∈ keys lt := by
  have h1 := tlookup_eq_none_iff (tstore lt k v) k'
  have h2 := tlookup_eq_none_iff lt k'
  rw [tlookup_tstore] at h1
  by_cases h : k = k'
  · subst h
    simp at h1
    simp [h1]
  · have h3 : ¬ k' = k := fun h' => h h'.symm
    rw [if_neg h] at h1
    simp only [h3, false_or]
    constructor
    · intro hm
      by_contra hc
      exact (h1.mp (h2.mpr hc)) hm
    · intro hm
      by_contra hc
      exact (h2.mp (h1.mpr hc)) hm

/-- The entry found under `s'` after `insert_into_lookup_table lt p s m`. -/
theorem tlookup_insert (lt : Table) (p : Vec) (s : Nat) (m : ℚ) (s' : Nat) :
    tlookup (insert_into_lookup_table lt p s m) s'
      = if s = s' then
          (match tlookup lt s with
            | none => some ⟨m, p⟩
            | some e => if e.mag ≥ m then some ⟨m, p⟩ else some e)
        else tlookup lt s' := by
  unfold insert_into_lookup_table
  cases hl : tlookup lt s with
  | none => simp only [tlookup_tstore]
  | some e =>
    by_cases hm : e.mag ≥ m
    · simp only [hm, if_true, tlookup_tstore]
    · simp only [hm, if_false]
      by_cases hs : s = s'
      · subst hs
        simp [hl]
      · simp [hs]

theorem mem_keys_insert (lt : Table) (p : Vec) (s : Nat) (m : ℚ) (k : Nat) :
    k ∈ keys (insert_into_lookup_table lt p s m) ↔ k = s ∨ k ∈ keys lt := by
  unfold insert_into_lookup_table
  cases hl : tlookup lt s with
  | none => simp only [mem_keys_tstore]
  | some e =>
    have hs : s ∈ keys lt := by
      by_contra hc
      rw [(tlookup_eq_none_iff lt s).mpr hc] at hl
      cases hl
    by_cases hm : e.mag ≥ m
    · simp only [hm, if_true, mem_keys_tstore]
    · simp only [hm, if_false]
      constructor
      · intro h; exact Or.inr h
      · rintro (h | h)
        · rw [h]; exact hs
        · exact h

/-- C8: after any sequence of `insert_into_lookup_table` calls on an empty
table, a signature is present iff an insert was attempted for it, and for
every signature `s` present the stored magnitude is `<=` the magnitude of
every insert attempted with `s`, while the stored point is the point of the
last attempted insert for `s` with that minimal magnitude (every later insert
for `s` has a strictly larger magnitude). -/
theorem insert_sequence_keeps_last_minimum (ops : List (Vec × Nat × ℚ)) :
    ∀ s : Nat,
      (tlookup (ops.foldl
          (fun lt op => insert_into_lookup_table lt op.1 op.2.1 op.2.2) []) s
          = none → ∀ op ∈ ops, op.2.1 ≠ s)
      ∧ ∀ fc : FunctionCall,
          tlookup (ops.foldl
            (fun lt op => insert_into_lookup_table lt op.1 op.2.1 op.2.2) []) s
            = some fc →
          (∀ op ∈ ops, op.2.1 = s → fc.mag ≤ op.2.2)
            ∧ ∃ pre post, ops = pre ++ (fc.vec, s, fc.mag) :: post
                ∧ ∀ op ∈ post, op.2.1 = s → fc.mag < op.2.2 := by
  induction ops using List.reverseRecOn with
  | nil =>
    intro s
    simp [tlookup]
  | append_singleton ops op ih =>
    intro s
    obtain ⟨p, s0, m0⟩ := op
    simp only [List.foldl_append, List.foldl_cons, List.foldl_nil,
      tlookup_insert]
    by_cases hs : s0 = s
    · subst hs
      obtain ⟨ihn, ihs⟩ := ih s0
      simp only [if_true]
      cases hl : tlookup (ops.foldl
          (fun lt op => insert_into_lookup_table lt op.1 op.2.1 op.2.2) []) s0 with
      | none =>
        refine ⟨fun h => (by cases h), ?_⟩
        intro fc hfc
        cases hfc
        refine ⟨?_, ops, [], rfl, by simp⟩
        intro op hop hsig
        rcases List.mem_append.mp hop with h | h
        · exact absurd hsig (ihn hl op h)
        · simp at h
          subst h
          exact le_refl _
      | some e =>
        obtain ⟨hmin, pre, post, hsplit, hpost⟩ := ihs e hl
        by_cases hm : e.mag ≥ m0
        · simp only [hm, if_true]
          refine ⟨fun h => (by cases h), ?_⟩
          intro fc hfc
          cases hfc
          refine ⟨?_, ops, [], rfl, by simp⟩
          intro op hop hsig
          rcases List.mem_append.mp hop with h | h
          · exact le_trans hm (hmin op h hsig)
          · simp at h
            subst h
            exact le_refl _
        · simp only [hm, if_false]
          refine ⟨fun h => (by cases h), ?_⟩
          intro fc hfc
          cases hfc
          refine ⟨?_, pre, post ++ [(p, s0, m0)], ?_, ?_⟩
          · intro op hop hsig
            rcases List.mem_append.mp hop with h | h
            · exact hmin op h hsig
            · simp at h
              subst h
              exact le_of_lt (not_le.mp hm)
          · rw [hsplit]
            simp
          · intro op hop hsig
            rcases List.mem_append.mp hop with h | h
            · exact hpost op h hsig
            · simp at h
              subst h
              exact not_le.mp hm
    · obtain ⟨ihn, ihs⟩ := ih s
      simp only [hs, if_false]
      constructor
      · intro hnone op hop
        rcases List.mem_append.mp hop with h | h
        · exact ihn hnone op h
        · simp at h
          subst h
          exact hs
      · intro fc hfc
        obtain ⟨hmin, pre, post, hsplit, hpost⟩ := ihs fc hfc
        refine ⟨?_, pre, post ++ [(p, s0, m0)], ?_, ?_⟩
        · intro op hop hsig
          rcases List.mem_append.mp hop with h | h
          · exact hmin op h hsig
          · simp at h
            subst h
            exact absurd hsig hs
        · rw [hsplit]
          simp
        · intro op hop hsig
          rcases List.mem_append.mp hop with h | h
          · exact hpost op h hsig
          · simp at h
            subst h
            exact absurd hsig hs

/-! ## Validation and failure propagation -/

theorem AllOk_append (f : VectorValuedFunction) (log : List Vec) (p : Vec)
    (v : Vec) (h : AllOk f log) (hp : f p = .ok v) : AllOk f (log ++ [p]) := by
  intro q hq
  rcases List.mem_append.mp hq with h1 | h1
  · exact h q h1
  · simp at h1
    subst h1
    exact ⟨v, hp⟩

/-- A step fails with the failure of `f` at `x`, or `f` succeeded at `x`. -/
theorem step_eval_cases (range : RangeOracle) (f : VectorValuedFunction)
    (x : Vec) (lt : Table) :
    (∃ e, f x = .error e
        ∧ iterative_simplex_roots range f x lt = .error (.eval e))
      ∨ ∃ v, f x = .ok v := by
  cases h : f x with
  | error e =>
    left
    exact ⟨e, rfl, by simp [iterative_simplex_roots, h]⟩
  | ok v =>
    right
    exact ⟨v, rfl⟩

theorem seedLoop_log (rnd : Nat → Nat) (f : VectorValuedFunction)
    (bounds : Matrix) (length : Nat) :
    ∀ (is : List Nat) (k : Nat) (lt : Table) (log : List Vec),
      AllOk f log →
      (∃ lt', (seedLoop rnd f bounds length is k lt log).1 = .ok lt'
          ∧ AllOk f (seedLoop rnd f bounds length is k lt log).2)
        ∨ ∃ pre p e,
            (seedLoop rnd f bounds length is k lt log).2 = pre ++ [p]
              ∧ AllOk f pre ∧ f p = .error e
              ∧ (seedLoop rnd f bounds length is k lt log).1
                  = .error (.eval e) := by
  intro is
  induction is with
  | nil =>
    intro k lt log hlog
    left
    exact ⟨lt, rfl, hlog⟩
  | cons i is ih =>
    intro k lt log hlog
    cases h1 : f (cornerPair rnd bounds length i k).1 with
    | error e =>
      right
      refine ⟨log, (cornerPair rnd bounds length i k).1, e, ?_, hlog, h1, ?_⟩
      · simp [seedLoop, h1]
      · simp [seedLoop, h1]
    | ok lower_res =>
      have hlog1 := AllOk_append f log _ lower_res hlog h1
      cases h2 : f (cornerPair rnd bounds length i k).2.1 with
      | error e =>
        right
        refine ⟨log ++ [(cornerPair rnd bounds length i k).1],
          (cornerPair rnd bounds length i k).2.1, e, ?_, hlog1, h2, ?_⟩
        · simp [seedLoop, h1, h2]
        · simp [seedLoop, h1, h2]
      | ok upper_res =>
        have hlog2 := AllOk_append f _ _ upper_res hlog1 h2
        have hlog3 : AllOk f (log ++ [(cornerPair rnd bounds length i k).1,
            (cornerPair rnd bounds length i k).2.1]) := by
          simpa using hlog2
        have := ih (cornerPair rnd bounds length i k).2.2
          (insert_into_lookup_table
            (insert_into_lookup_table lt (cornerPair rnd bounds length i k).1
              (sign_int lower_res) (SquaredMagnitude lower_res))
            (cornerPair rnd bounds length i k).2.1
            (sign_int upper_res) (SquaredMagnitude upper_res))
          _ hlog3
        simpa [seedLoop, h1, h2] using this

theorem driverLoop_log (range : Nat → RangeOracle) (f : VectorValuedFunction) :
    ∀ (left iters : Nat) (mag : ℚ) (x : Vec) (lt : Table) (log : List Vec),
      AllOk f log →
      LogCoherent f (driverLoop range f left iters mag x lt log).evals
        (driverLoop range f left iters mag x lt log).result := by
  intro left
  induction left with
  | zero =>
    intro iters mag x lt log hlog
    left
    exact hlog
  | succ left ih =>
    intro iters mag x lt log hlog
    by_cases hm : mag > TOL
    · rcases step_eval_cases (range iters) f x lt with ⟨e, he, hstep⟩ | ⟨v, hv⟩
      · right
        refine ⟨log, x, e, ?_, hlog, he, ?_⟩
        · simp [driverLoop, hm, hstep]
        · simp [driverLoop, hm, hstep]
      · have hlog1 := AllOk_append f log x v hlog hv
        cases hstep : iterative_simplex_roots (range iters) f x lt with
        | error e =>
          left
          simpa [driverLoop, hm, hstep] using hlog1
        | ok r =>
          have := ih (iters + 1) r.1 r.2.1 r.2.2 _ hlog1
          simpa [driverLoop, hm, hstep] using this
    · left
      simpa [driverLoop, hm] using hlog

theorem SimplexRoots_eq_result (rnd : Nat → Nat) (range : Nat → RangeOracle)
    (f : VectorValuedFunction) (x0 : Vec) (bounds : Matrix) :
    SimplexRoots rnd range f x0 bounds
      = (SimplexRootsRun rnd range f x0 bounds).result := rfl

theorem run_rows (rnd : Nat → Nat) (range : Nat → RangeOracle)
    (f : VectorValuedFunction) (x0 : Vec) (bounds : Matrix)
    (hr : bounds.rows ≠ x0.length) :
    SimplexRootsRun rnd range f x0 bounds = ⟨.error .rowsMismatch, [], 0⟩ := by
  unfold SimplexRootsRun
  simp only [hr, ne_eq, not_false_eq_true, if_true]

theorem run_cols (rnd : Nat → Nat) (range : Nat → RangeOracle)
    (f : VectorValuedFunction) (x0 : Vec) (bounds : Matrix)
    (hr : bounds.rows = x0.length) (hc : bounds.cols ≠ 2) :
    SimplexRootsRun rnd range f x0 bounds = ⟨.error .colsMismatch, [], 0⟩ := by
  unfold SimplexRootsRun
  simp only [hr, hc, ne_eq, not_true_eq_false, not_false_eq_true, if_true,
    if_false]

theorem run_eval_error (rnd : Nat → Nat) (range : Nat → RangeOracle)
    (f : VectorValuedFunction) (x0 : Vec) (bounds : Matrix)
    (hr : bounds.rows = x0.length) (hc : bounds.cols = 2) (e : String)
    (h0 : f x0 = .error e) :
    SimplexRootsRun rnd range f x0 bounds = ⟨.error (.eval e), [x0], 0⟩ := by
  unfold SimplexRootsRun
  simp only [hr, hc, ne_eq, not_true_eq_false, if_false, h0]

theorem run_seed_error (rnd : Nat → Nat) (range : Nat → RangeOracle)
    (f : VectorValuedFunction) (x0 : Vec) (bounds : Matrix)
    (hr : bounds.rows = x0.length) (hc : bounds.cols = 2) (output : Vec)
    (h0 : f x0 = .ok output) (e : Error) (log : List Vec)
    (hs : seedLoop rnd f bounds x0.length (List.range x0.length) 0 [] [x0]
      = (.error e, log)) :
    SimplexRootsRun rnd range f x0 bounds = ⟨.error e, log, 0⟩ := by
  unfold SimplexRootsRun
  simp only [hr, hc, ne_eq, not_true_eq_false, if_false, h0, hs]

theorem run_seeded (rnd : Nat → Nat) (range : Nat → RangeOracle)
    (f : VectorValuedFunction) (x0 : Vec) (bounds : Matrix)
    (hr : bounds.rows = x0.length) (hc : bounds.cols = 2) (output : Vec)
    (h0 : f x0 = .ok output) (lt : Table) (log : List Vec)
    (hs : seedLoop rnd f bounds x0.length (List.range x0.length) 0 [] [x0]
      = (.ok lt, log)) :
    SimplexRootsRun rnd range f x0 bounds
      = driverLoop range f MAX_ITERS 0 (SquaredMagnitude output) x0 lt log := by
  unfold SimplexRootsRun
  simp only [hr, hc, ne_eq, not_true_eq_false, if_false, h0, hs]

theorem AllOk_nil (f : VectorValuedFunction) : AllOk f [] := by
  intro p hp
  cases hp

theorem run_log (rnd : Nat → Nat) (range : Nat → RangeOracle)
    (f : VectorValuedFunction) (x0 : Vec) (bounds : Matrix) :
    LogCoherent f (SimplexRootsRun rnd range f x0 bounds).evals
      (SimplexRootsRun rnd range f x0 bounds).result := by
  by_cases hr : bounds.rows = x0.length
  · by_cases hc : bounds.cols = 2
    · cases h0 : f x0 with
      | error e =>
        rw [run_eval_error rnd range f x0 bounds hr hc e h0]
        right
        exact ⟨[], x0, e, rfl, AllOk_nil f, h0, rfl⟩
      | ok output =>
        have hlog0 : AllOk f [x0] := by
          intro p hp
          simp at hp
          subst hp
          exact ⟨output, h0⟩
        rcases hs : seedLoop rnd f bounds x0.length (List.range x0.length) 0
            [] [x0] with ⟨res, log⟩
        have hseed := seedLoop_log rnd f bounds x0.length
          (List.range x0.length) 0 [] [x0] hlog0
        rw [hs] at hseed
        cases res with
        | error e =>
          rw [run_seed_error rnd range f x0 bounds hr hc output h0 e log hs]
          rcases hseed with ⟨lt', h1, _⟩ | ⟨pre, p, e', h1, h2, h3, h4⟩
          · cases h1
          · right
            simp only at h1 h4
            subst h1
            cases h4
            exact ⟨pre, p, e', rfl, h2, h3, rfl⟩
        | ok lt =>
          rw [run_seeded rnd range f x0 bounds hr hc output h0 lt log hs]
          rcases hseed with ⟨lt', _, h2⟩ | ⟨pre, p, e', _, _, _, h4⟩
          · exact driverLoop_log range f MAX_ITERS 0 _ x0 lt log h2
          · cases h4
    · rw [run_cols rnd range f x0 bounds hr hc]
      left
      exact AllOk_nil f
  · rw [run_rows rnd range f x0 bounds hr]
    left
    exact AllOk_nil f

/-- C2: if the bounds row count differs from the dimension of the initial
point, or the column count is not 2, `SimplexRoots` returns one of the two
validation errors (so no vector), `f` is never evaluated, and the whole run is
the same for every `f`, every random outcome and every map iteration order. -/
theorem SimplexRoots_validation (rnd : Nat → Nat) (range : Nat → RangeOracle)
    (f : VectorValuedFunction) (x0 : Vec) (bounds : Matrix)
    (h : bounds.rows ≠ x0.length ∨ bounds.cols ≠ 2) :
    (SimplexRoots rnd range f x0 bounds = .error .rowsMismatch
        ∨ SimplexRoots rnd range f x0 bounds = .error .colsMismatch)
      ∧ (SimplexRootsRun rnd range f x0 bounds).evals = []
      ∧ (SimplexRootsRun rnd range f x0 bounds).steps = 0
      ∧ ∀ rnd' range' f',
          SimplexRootsRun rnd' range' f' x0 bounds
            = SimplexRootsRun rnd range f x0 bounds := by
  unfold SimplexRoots SimplexRootsRun
  by_cases hr : bounds.rows ≠ x0.length
  · simp [hr]
  · have hc : bounds.cols ≠ 2 := by
      rcases h with h | h
      · exact absurd h hr
      · exact h
    simp [hr, hc]

/-- Witness for C2: a 2x2 bounds matrix with a one-dimensional initial point
and a function that always fails. -/
theorem SimplexRoots_validation_witness :
    ((NewDense 2 2 [0, 1, 0, 1]).rows ≠ ([1] : Vec).length
        ∨ (NewDense 2 2 [0, 1, 0, 1]).cols ≠ 2)
      ∧ (SimplexRootsRun (fun _ => 0) (fun _ => inOrder)
          (fun _ => .error "undefined") [1] (NewDense 2 2 [0, 1, 0, 1])).evals
          = [] :=
  ⟨by decide,
    (SimplexRoots_validation (fun _ => 0) (fun _ => inOrder)
      (fun _ => .error "undefined") [1] (NewDense 2 2 [0, 1, 0, 1])
      (by decide)).2.1⟩

/-- C3: if `f` fails at a point `SimplexRoots` evaluates it on (the `i`-th
call of `f` in the run, be it the initial point, a seeded corner or an iterate
of a step), then that call is the last call of `f` in the run and
`SimplexRoots` returns exactly that failure, hence no vector. -/
theorem SimplexRoots_propagates_failure (rnd : Nat → Nat)
    (range : Nat → RangeOracle) (f : VectorValuedFunction) (x0 : Vec)
    (bounds : Matrix) (i : Nat) (p : Vec) (e : String)
    (hp : (SimplexRootsRun rnd range f x0 bounds).evals[i]? = some p)
    (hf : f p = .error e) :
    i + 1 = (SimplexRootsRun rnd range f x0 bounds).evals.length
      ∧ SimplexRoots rnd range f x0 bounds = .error (.eval e) := by
  have hmem : p ∈ (SimplexRootsRun rnd range f x0 bounds).evals :=
    List.getElem?_mem hp
  rcases run_log rnd range f x0 bounds with hall | ⟨pre, q, e', h1, h2, h3, h4⟩
  · obtain ⟨v, hv⟩ := hall p hmem
    rw [hv] at hf
    cases hf
  · rw [h1] at hp
    by_cases hlt : i < pre.length
    · rw [List.getElem?_append_left hlt] at hp
      obtain ⟨v, hv⟩ := h2 p (List.getElem?_mem hp)
      rw [hv] at hf
      cases hf
    · have hlen : i < (pre ++ [q]).length := by
        by_contra hc
        rw [List.getElem?_eq_none (by omega)] at hp
        cases hp
      simp at hlen
      have hi : i = pre.length := by omega
      subst hi
      simp at hp
      subst hp
      rw [h3] at hf
      cases hf
      refine ⟨by rw [h1]; simp, ?_⟩
      unfold SimplexRoots
      exact h4

/-- Witness for C3: `failAt` fails at the second iterate `11/2`, the fifth
call of `f` in the run. -/
theorem SimplexRoots_propagates_failure_witness :
    (SimplexRootsRun (fun _ => 0) (fun _ => inOrder) failAt [1]
        (NewDense 1 2 [-3 / 2, 10])).evals[4]? = some [11 / 2]
      ∧ failAt [11 / 2] = .error "undefined"
      ∧ 4 + 1 = (SimplexRootsRun (fun _ => 0) (fun _ => inOrder) failAt [1]
          (NewDense 1 2 [-3 / 2, 10])).evals.length
      ∧ SimplexRoots (fun _ => 0) (fun _ => inOrder) failAt [1]
          (NewDense 1 2 [-3 / 2, 10]) = .error (.eval "undefined") :=
  ⟨by decide!, by simp [failAt],
    SimplexRoots_propagates_failure (fun _ => 0) (fun _ => inOrder) failAt [1]
      (NewDense 1 2 [-3 / 2, 10]) 4 [11 / 2] "undefined" (by decide!)
      (by simp [failAt])⟩

/-! ## The fallback scan on non-negative signatures -/

theorem asInt64_of_lt (w : Nat) (h : w < 2 ^ 63) : asInt64 w = (w : Int) := by
  unfold asInt64
  rw [if_pos h]

theorem fallbackScan_cons (s k : Nat) (ks : List Nat) (st : Nat × Nat) :
    fallbackScan s (k :: ks) st
      = fallbackScan s ks
          (if asInt64 (s ^^^ k) ≤ asInt64 st.2 then (k, s ^^^ k) else st) := by
  simp [fallbackScan]

/-- Once the scan holds the signature itself with distance 0 it keeps it. -/
theorem fallbackScan_fixed (s : Nat) (hs : s < 2 ^ 63) :
    ∀ ks : List Nat, (∀ k ∈ ks, k < 2 ^ 63) →
      fallbackScan s ks (s, 0) = (s, 0) := by
  intro ks
  induction ks with
  | nil => intro _; rfl
  | cons k ks ih =>
    intro hks
    have hk : k < 2 ^ 63 := hks k (List.mem_cons_self _ _)
    have hx : s ^^^ k < 2 ^ 63 := Nat.xor_lt_two_pow hs hk
    rw [fallbackScan_cons]
    by_cases h0 : s ^^^ k = 0
    · have hsk : k = s := (Nat.xor_eq_zero.mp h0).symm
      subst hsk
      simp only [Nat.xor_self, le_refl, if_true]
      exact ih (fun k' hk' => hks k' (List.mem_cons_of_mem _ hk'))
    · have hneg : ¬ asInt64 (s ^^^ k) ≤ asInt64 (s, 0).2 := by
        rw [asInt64_of_lt _ hx, asInt64_of_lt 0 (by norm_num)]
        simp only [Nat.cast_zero, Int.natCast_nonpos_iff] 
        exact h0
      rw [if_neg hneg]
      exact ih (fun k' hk' => hks k' (List.mem_cons_of_mem _ hk'))

/-- On non-negative signatures the scan ends on the signature `s` itself as
soon as `s` is among the keys, whatever the order of the keys. -/
theorem fallbackScan_own (s : Nat) (hs : s < 2 ^ 63) :
    ∀ (ks : List Nat) (st : Nat × Nat), (∀ k ∈ ks, k < 2 ^ 63) →
      st.2 < 2 ^ 63 → s ∈ ks → fallbackScan s ks st = (s, 0) := by
  intro ks
  induction ks with
  | nil => intro st _ _ hmem; cases hmem
  | cons k ks ih =>
    intro st hks hst hmem
    have hk : k < 2 ^ 63 := hks k (List.mem_cons_self _ _)
    have hx : s ^^^ k < 2 ^ 63 := Nat.xor_lt_two_pow hs hk
    have hrest : ∀ k' ∈ ks, k' < 2 ^ 63 :=
      fun k' hk' => hks k' (List.mem_cons_of_mem _ hk')
    rw [fallbackScan_cons]
    by_cases hsk : k = s
    · subst hsk
      have hle : asInt64 (k ^^^ k) ≤ asInt64 st.2 := by
        rw [Nat.xor_self, asInt64_of_lt 0 (by norm_num), asInt64_of_lt _ hst]
        exact Int.natCast_nonneg _
      rw [if_pos hle, Nat.xor_self]
      exact fallbackScan_fixed k hs ks hrest
    · have hmem' : s ∈ ks := by
        rcases List.mem_cons.mp hmem with h | h
        · exact absurd h.symm hsk
        · exact h
      by_cases hle : asInt64 (s ^^^ k) ≤ asInt64 st.2
      · rw [if_pos hle]
        exact ih _ hrest hx hmem'
      · rw [if_neg hle]
        exact ih _ hrest hst hmem'

theorem KeysOK_insert (lt : Table) (p : Vec) (s : Nat) (m : ℚ)
    (h : KeysOK lt) (hs : s < 2 ^ 63) :
    KeysOK (insert_into_lookup_table lt p s m) := by
  intro k hk
  rcases (mem_keys_insert lt p s m k).mp hk with h1 | h1
  · rw [h1]; exact hs
  · exact h k h1

theorem KeysOK_nil : KeysOK [] := by
  intro k hk
  cases hk

/-- With non-negative signatures the fallback selects the entry stored under
the current signature, for every enumeration of the keys. -/
theorem fallback_selects_own (range : RangeOracle) (lt : Table) (p : Vec)
    (v : Vec) (m : ℚ) (hlt : KeysOK lt) (hv : v.length < 64) :
    fallbackScan (sign_int v)
        (range.1 (insert_into_lookup_table lt p (sign_int v) m))
        (minusOne, opposite_sign_int v)
      = (sign_int v, 0) := by
  have hs : sign_int v < 2 ^ 63 := sign_int_lt v 63 (by omega)
  have ho : opposite_sign_int v < 2 ^ 63 := opposite_sign_int_lt v 63 (by omega)
  have hperm := range.2 (insert_into_lookup_table lt p (sign_int v) m)
  apply fallbackScan_own (sign_int v) hs
  · intro k hk
    exact KeysOK_insert lt p (sign_int v) m hlt hs k (hperm.mem_iff.mp hk)
  · exact ho
  · apply hperm.mem_iff.mpr
    exact (mem_keys_insert lt p (sign_int v) m (sign_int v)).mpr (Or.inl rfl)

/-- The step does not depend on the map iteration order when signatures are
non-negative. -/
theorem step_range_irrelevant (range range' : RangeOracle)
    (f : VectorValuedFunction) (x : Vec) (lt : Table) (hf : SmallDim f)
    (hlt : KeysOK lt) :
    iterative_simplex_roots range f x lt
      = iterative_simplex_roots range' f x lt := by
  unfold iterative_simplex_roots
  cases h : f x with
  | error e => rfl
  | ok v =>
    have hv := hf x v h
    simp only [fallback_selects_own range lt x v _ hlt hv,
      fallback_selects_own range' lt x v _ hlt hv]

/-- The table returned by a successful step has non-negative signatures. -/
theorem step_KeysOK (range : RangeOracle) (f : VectorValuedFunction) (x : Vec)
    (lt : Table) (hf : SmallDim f) (hlt : KeysOK lt) (r : ℚ × Vec × Table)
    (hstep : iterative_simplex_roots range f x lt = .ok r) : KeysOK r.2.2 := by
  unfold iterative_simplex_roots at hstep
  cases h : f x with
  | error e => rw [h] at hstep; cases hstep
  | ok v =>
    have hv := hf x v h
    have hs : sign_int v < 2 ^ 63 := sign_int_lt v 63 (by omega)
    have hk := KeysOK_insert lt x (sign_int v) (SquaredMagnitude v) hlt hs
    rw [h] at hstep
    simp only at hstep
    split at hstep
    · cases hstep; exact hk
    · split at hstep
      · cases hstep; exact hk
      · split at hstep
        · cases hstep; exact hk
        · cases hstep

theorem driverLoop_zero (range : Nat → RangeOracle) (f : VectorValuedFunction)
    (iters : Nat) (mag : ℚ) (x : Vec) (lt : Table) (log : List Vec) :
    driverLoop range f 0 iters mag x lt log = ⟨finish mag x, log, iters⟩ := rfl

theorem driverLoop_done (range : Nat → RangeOracle) (f : VectorValuedFunction)
    (left iters : Nat) (mag : ℚ) (x : Vec) (lt : Table) (log : List Vec)
    (hm : ¬ mag > TOL) :
    driverLoop range f left iters mag x lt log = ⟨.ok x, log, iters⟩ := by
  cases left with
  | zero => simp [driverLoop, finish, hm]
  | succ left => simp [driverLoop, finish, hm]

theorem driverLoop_step_ok (range : Nat → RangeOracle)
    (f : VectorValuedFunction) (left iters : Nat) (mag : ℚ) (x : Vec)
    (lt : Table) (log : List Vec) (hm : mag > TOL) (r : ℚ × Vec × Table)
    (hstep : iterative_simplex_roots (range iters) f x lt = .ok r) :
    driverLoop range f (left + 1) iters mag x lt log
      = driverLoop range f left (iters + 1) r.1 r.2.1 r.2.2 (log ++ [x]) := by
  simp [driverLoop, hm, hstep]

theorem driverLoop_step_error (range : Nat → RangeOracle)
    (f : VectorValuedFunction) (left iters : Nat) (mag : ℚ) (x : Vec)
    (lt : Table) (log : List Vec) (hm : mag > TOL) (e : Error)
    (hstep : iterative_simplex_roots (range iters) f x lt = .error e) :
    driverLoop range f (left + 1) iters mag x lt log
      = ⟨.error e, log ++ [x], iters + 1⟩ := by
  simp [driverLoop, hm, hstep]

theorem driverLoop_range_irrelevant (range range' : Nat → RangeOracle)
    (f : VectorValuedFunction) (hf : SmallDim f) :
    ∀ (left iters : Nat) (mag : ℚ) (x : Vec) (lt : Table) (log : List Vec),
      KeysOK lt →
      driverLoop range f left iters mag x lt log
        = driverLoop range' f left iters mag x lt log := by
  intro left
  induction left with
  | zero => intro iters mag x lt log _; rfl
  | succ left ih =>
    intro iters mag x lt log hlt
    by_cases hm : mag > TOL
    · have heq := step_range_irrelevant (range iters) (range' iters) f x lt
        hf hlt
      cases hstep : iterative_simplex_roots (range iters) f x lt with
      | error e =>
        rw [driverLoop_step_error range f left iters mag x lt log hm e hstep,
          driverLoop_step_error range' f left iters mag x lt log hm e
            (heq ▸ hstep)]
      | ok r =>
        rw [driverLoop_step_ok range f left iters mag x lt log hm r hstep,
          driverLoop_step_ok range' f left iters mag x lt log hm r
            (heq ▸ hstep)]
        exact ih _ _ _ _ _ (step_KeysOK (range iters) f x lt hf hlt r hstep)
    · rw [driverLoop_done range f _ iters mag x lt log hm,
        driverLoop_done range' f _ iters mag x lt log hm]

theorem seedLoop_KeysOK (rnd : Nat → Nat) (f : VectorValuedFunction)
    (bounds : Matrix) (length : Nat) (hf : SmallDim f) :
    ∀ (is : List Nat) (k : Nat) (lt : Table) (log : List Vec), KeysOK lt →
      ∀ lt', (seedLoop rnd f bounds length is k lt log).1 = .ok lt' →
        KeysOK lt' := by
  intro is
  induction is with
  | nil =>
    intro k lt log hlt lt' h
    simp only [seedLoop] at h
    cases h
    exact hlt
  | cons i is ih =>
    intro k lt log hlt lt' h
    cases h1 : f (cornerPair rnd bounds length i k).1 with
    | error e =>
      simp [seedLoop, h1] at h
    | ok lower_res =>
      cases h2 : f (cornerPair rnd bounds length i k).2.1 with
      | error e =>
        simp [seedLoop, h1, h2] at h
      | ok upper_res =>
        simp only [seedLoop, h1, h2] at h
        refine ih _ _ _ ?_ lt' h
        apply KeysOK_insert
        · apply KeysOK_insert _ _ _ _ hlt
          exact sign_int_lt _ 63 (by have := hf _ _ h1; omega)
        · exact sign_int_lt _ 63 (by have := hf _ _ h2; omega)

/-- When every output of `f` has fewer than 64 components, a run does not
depend on the order in which Go enumerates the map. -/
theorem run_range_irrelevant (rnd : Nat → Nat) (range range' : Nat → RangeOracle)
    (f : VectorValuedFunction) (x0 : Vec) (bounds : Matrix) (hf : SmallDim f) :
    SimplexRootsRun rnd range f x0 bounds
      = SimplexRootsRun rnd range' f x0 bounds := by
  by_cases hr : bounds.rows = x0.length
  · by_cases hc : bounds.cols = 2
    · cases h0 : f x0 with
      | error e =>
        rw [run_eval_error rnd range f x0 bounds hr hc e h0,
          run_eval_error rnd range' f x0 bounds hr hc e h0]
      | ok output =>
        rcases hs : seedLoop rnd f bounds x0.length (List.range x0.length) 0
            [] [x0] with ⟨res, log⟩
        cases res with
        | error e =>
          rw [run_seed_error rnd range f x0 bounds hr hc output h0 e log hs,
            run_seed_error rnd range' f x0 bounds hr hc output h0 e log hs]
        | ok lt =>
          rw [run_seeded rnd range f x0 bounds hr hc output h0 lt log hs,
            run_seeded rnd range' f x0 bounds hr hc output h0 lt log hs]
          apply driverLoop_range_irrelevant range range' f hf
          apply seedLoop_KeysOK rnd f bounds x0.length hf
            (List.range x0.length) 0 [] [x0] KeysOK_nil lt
          rw [hs]
    · rw [run_cols rnd range f x0 bounds hr hc,
        run_cols rnd range' f x0 bounds hr hc]
  · rw [run_rows rnd range f x0 bounds hr, run_rows rnd range' f x0 bounds hr]

/-- In one dimension the seeding draws no random number. -/
theorem run_rnd_irrelevant_1d (rnd rnd' : Nat → Nat) (range : Nat → RangeOracle)
    (f : VectorValuedFunction) (a : ℚ) (bounds : Matrix) :
    SimplexRootsRun rnd range f [a] bounds
      = SimplexRootsRun rnd' range f [a] bounds := by
  have hr : List.range 1 = [0] := rfl
  have hc : ∀ k, cornerPair rnd bounds 1 0 k = cornerPair rnd' bounds 1 0 k := by
    intro k
    simp [cornerPair, hr]
  have hs : ∀ lt log, seedLoop rnd f bounds 1 (List.range 1) 0 lt log
      = seedLoop rnd' f bounds 1 (List.range 1) 0 lt log := by
    intro lt log
    simp only [hr, seedLoop, hc]
  unfold SimplexRootsRun
  simp only [List.length_singleton, hs]

theorem test_1d_SmallDim : SmallDim test_1d := by
  intro x v h
  simp only [test_1d] at h
  cases h
  simp

theorem test_1d_upper_run :
    (SimplexRootsRun (fun _ => 0) (fun _ => inOrder) test_1d [1]
      (NewDense 1 2 [-3 / 2, 10])).result = .ok [2] := by
  decide!

theorem test_1d_lower_run :
    (SimplexRootsRun (fun _ => 0) (fun _ => inOrder) test_1d [1]
      (NewDense 1 2 [-5, 3 / 2])).result = .ok [-2] := by
  decide!

/-- C5: for `f(x) = x^2 - 4` and initial point `1`, `SimplexRoots` with bounds
`[-1.5, 10]` returns without error a point `r` with `(r - 2)^2 <= 1e-9` (it is
exactly `2`), and with bounds `[-5, 1.5]` a point `r` with
`(r + 2)^2 <= 1e-9` (it is exactly `-2`), for every random outcome and every
map iteration order. -/
theorem SimplexRoots_test_1d (rnd : Nat → Nat) (range : Nat → RangeOracle) :
    (∃ r : ℚ, SimplexRoots rnd range test_1d [1] (NewDense 1 2 [-3 / 2, 10])
          = .ok [r] ∧ (r - 2) ^ 2 ≤ 1 / 10 ^ 9)
      ∧ ∃ r : ℚ, SimplexRoots rnd range test_1d [1] (NewDense 1 2 [-5, 3 / 2])
          = .ok [r] ∧ (r + 2) ^ 2 ≤ 1 / 10 ^ 9 := by
  have h1 : SimplexRoots rnd range test_1d [1] (NewDense 1 2 [-3 / 2, 10])
      = .ok [2] := by
    rw [SimplexRoots_eq_result,
      run_range_irrelevant rnd range (fun _ => inOrder) test_1d _ _
        test_1d_SmallDim,
      run_rnd_irrelevant_1d rnd (fun _ => 0)]
    exact test_1d_upper_run
  have h2 : SimplexRoots rnd range test_1d [1] (NewDense 1 2 [-5, 3 / 2])
      = .ok [-2] := by
    rw [SimplexRoots_eq_result,
      run_range_irrelevant rnd range (fun _ => inOrder) test_1d _ _
        test_1d_SmallDim,
      run_rnd_irrelevant_1d rnd (fun _ => 0)]
    exact test_1d_lower_run
  exact ⟨⟨2, h1, by norm_num⟩, ⟨-2, h2, by norm_num⟩⟩

/-! ## Stalled iterations -/

/-- If a step at `x` gives back `x`, the same table and a magnitude above
`TOL`, the driver loop spends its whole budget and reports non-convergence. -/
theorem driverLoop_stall (range : Nat → RangeOracle) (f : VectorValuedFunction)
    (x : Vec) (lt : Table) (m : ℚ) (hm : m > TOL)
    (hstep : ∀ i, iterative_simplex_roots (range i) f x lt = .ok (m, x, lt)) :
    ∀ (left iters : Nat) (log : List Vec),
      (driverLoop range f left iters m x lt log).result = .error .notConverged
        ∧ (driverLoop range f left iters m x lt log).steps = iters + left := by
  intro left
  induction left with
  | zero =>
    intro iters log
    simp [driverLoop, finish, hm]
  | succ left ih =>
    intro iters log
    rw [driverLoop_step_ok range f left iters m x lt log hm _ (hstep iters)]
    obtain ⟨h1, h2⟩ := ih (iters + 1) (log ++ [x])
    exact ⟨h1, by rw [h2]; omega⟩

theorem test_2d_independent_SmallDim : SmallDim test_2d_independent := by
  intro x v h
  simp only [test_2d_independent] at h
  cases h
  simp

theorem test_2d_dependent_SmallDim : SmallDim test_2d_dependent := by
  intro x v h
  simp only [test_2d_dependent] at h
  cases h
  simp

theorem indep_facts :
    test_2d_independent [1, 1] = .ok [-6, 0]
      ∧ seedLoop draws0100 test_2d_independent
          (NewDense 2 2 [-1, 10, -7 / 2, 7 / 2]) 2 (List.range 2) 0 [] [[1, 1]]
          = (.ok seededIndep,
              [[1, 1], [-1, -7 / 2], [10, 7 / 2], [-1, -7 / 2], [-1, 7 / 2]])
      ∧ SquaredMagnitude [-6, 0] = 36
      ∧ iterative_simplex_roots inOrder test_2d_independent [1, 1] seededIndep
          = .ok (36, [1, 1],
              insert_into_lookup_table seededIndep [1, 1] 0 36)
      ∧ iterative_simplex_roots inOrder test_2d_independent [1, 1]
            (insert_into_lookup_table seededIndep [1, 1] 0 36)
          = .ok (36, [1, 1],
              insert_into_lookup_table seededIndep [1, 1] 0 36) := by
  decide!

theorem dep_facts :
    test_2d_dependent [3, 4] = .ok [24, 0]
      ∧ seedLoop draws0001 test_2d_dependent
          (NewDense 2 2 [0, 12, 0, 12]) 2 (List.range 2) 0 [] [[3, 4]]
          = (.ok seededDep, [[3, 4], [0, 0], [12, 0], [0, 0], [12, 12]])
      ∧ SquaredMagnitude [24, 0] = 576
      ∧ iterative_simplex_roots inOrder test_2d_dependent [3, 4] seededDep
          = .ok (576, [3, 4],
              insert_into_lookup_table seededDep [3, 4] 1 576)
      ∧ iterative_simplex_roots inOrder test_2d_dependent [3, 4]
            (insert_into_lookup_table seededDep [3, 4] 1 576)
          = .ok (576, [3, 4],
              insert_into_lookup_table seededDep [3, 4] 1 576) := by
  decide!

theorem TOL_lt_one : TOL < 1 := by
  unfold TOL
  norm_num

/-- C6 (failing input): with the random outcomes `0, 1, 0, 0` the seeded table
has no entry for the signature opposite to that of `f(1, 1)`, the fallback
selects the entry of the current point itself, every iterate is `(1, 1)` and
after `MAX_ITERS` steps `SimplexRoots` returns the non-convergence error, for
every map iteration order. -/
theorem SimplexRoots_test_2d_independent_stalls (range : Nat → RangeOracle) :
    SimplexRoots draws0100 range test_2d_independent [1, 1]
        (NewDense 2 2 [-1, 10, -7 / 2, 7 / 2]) = .error .notConverged
      ∧ (SimplexRootsRun draws0100 range test_2d_independent [1, 1]
          (NewDense 2 2 [-1, 10, -7 / 2, 7 / 2])).steps = MAX_ITERS := by
  obtain ⟨h0, hs, hmag, hstep0, hstep1⟩ := indep_facts
  have hm : (36 : ℚ) > TOL := lt_trans TOL_lt_one (by norm_num)
  rw [SimplexRoots_eq_result,
    run_range_irrelevant draws0100 range (fun _ => inOrder) test_2d_independent
      _ _ test_2d_independent_SmallDim,
    run_seeded draws0100 (fun _ => inOrder) test_2d_independent [1, 1] _ rfl rfl
      _ h0 _ _ hs,
    hmag]
  have hM : MAX_ITERS = 9999 + 1 := rfl
  rw [hM, driverLoop_step_ok (fun _ => inOrder) test_2d_independent 9999 0 36
      [1, 1] seededIndep _ hm _ hstep0]
  have hst := driverLoop_stall (fun _ => inOrder) test_2d_independent [1, 1]
    (insert_into_lookup_table seededIndep [1, 1] 0 36) 36 hm (fun _ => hstep1)
    9999 (0 + 1)
  exact ⟨(hst _).1, (hst _).2.trans (by norm_num)⟩

/-- C7 (failing input): with the random outcomes `0, 0, 0, 1` the seeded table
has no entry for the signature opposite to that of `f(3, 4)`, the fallback
selects the entry of the current point itself, every iterate is `(3, 4)` and
after `MAX_ITERS` steps `SimplexRoots` returns the non-convergence error, for
every map iteration order. -/
theorem SimplexRoots_test_2d_dependent_stalls (range : Nat → RangeOracle) :
    SimplexRoots draws0001 range test_2d_dependent [3, 4]
        (NewDense 2 2 [0, 12, 0, 12]) = .error .notConverged
      ∧ (SimplexRootsRun draws0001 range test_2d_dependent [3, 4]
          (NewDense 2 2 [0, 12, 0, 12])).steps = MAX_ITERS := by
  obtain ⟨h0, hs, hmag, hstep0, hstep1⟩ := dep_facts
  have hm : (576 : ℚ) > TOL := lt_trans TOL_lt_one (by norm_num)
  rw [SimplexRoots_eq_result,
    run_range_irrelevant draws0001 range (fun _ => inOrder) test_2d_dependent
      _ _ test_2d_dependent_SmallDim,
    run_seeded draws0001 (fun _ => inOrder) test_2d_dependent [3, 4] _ rfl rfl
      _ h0 _ _ hs,
    hmag]
  have hM : MAX_ITERS = 9999 + 1 := rfl
  rw [hM, driverLoop_step_ok (fun _ => inOrder) test_2d_dependent 9999 0 576
      [3, 4] seededDep _ hm _ hstep0]
  have hst := driverLoop_stall (fun _ => inOrder) test_2d_dependent [3, 4]
    (insert_into_lookup_table seededDep [3, 4] 1 576) 576 hm (fun _ => hstep1)
    9999 (0 + 1)
  exact ⟨(hst _).1, (hst _).2.trans (by norm_num)⟩

/-! ## What a returned point satisfies -/

theorem step_ok_shape (range : RangeOracle) (f : VectorValuedFunction)
    (x : Vec) (lt : Table) (r : ℚ × Vec × Table)
    (h : iterative_simplex_roots range f x lt = .ok r) :
    ∃ v, f x = .ok v ∧ r.1 = SquaredMagnitude v ∧ (r.1 < TOL → r.2.1 = x) := by
  unfold iterative_simplex_roots at h
  cases hf : f x with
  | error e => rw [hf] at h; cases h
  | ok v =>
    refine ⟨v, rfl, ?_⟩
    rw [hf] at h
    simp only at h
    split at h
    · cases h
      exact ⟨rfl, fun _ => rfl⟩
    · rename_i hnlt
      split at h
      · cases h
        exact ⟨rfl, fun hlt => absurd hlt hnlt⟩
      · split at h
        · cases h
          exact ⟨rfl, fun hlt => absurd hlt hnlt⟩
        · cases h

theorem finish_ok (mag : ℚ) (x xs : Vec) (h : finish mag x = .ok xs) :
    xs = x ∧ mag ≤ TOL := by
  unfold finish at h
  split at h
  · cases h
  · rename_i hm
    cases h
    exact ⟨rfl, not_lt.mp hm⟩

theorem Tracked_sound (f : VectorValuedFunction) (mag : ℚ) (x : Vec)
    (ht : Tracked f mag x) (hm : mag ≤ TOL) : SoundOrBoundary f x := by
  obtain ⟨y, v, hv, hmag, hx⟩ := ht
  rcases lt_or_eq_of_le hm with h | h
  · left
    rw [hx h]
    exact ⟨v, hv, by rw [← hmag]; exact hm⟩
  · right
    exact ⟨y, v, hv, by rw [← hmag]; exact h⟩

theorem driverLoop_sound (range : Nat → RangeOracle) (f : VectorValuedFunction) :
    ∀ (left iters : Nat) (mag : ℚ) (x : Vec) (lt : Table) (log : List Vec),
      Tracked f mag x →
      ∀ xs, (driverLoop range f left iters mag x lt log).result = .ok xs →
        SoundOrBoundary f xs := by
  intro left
  induction left with
  | zero =>
    intro iters mag x lt log ht xs h
    rw [driverLoop_zero] at h
    obtain ⟨h1, h2⟩ := finish_ok mag x xs h
    rw [h1]
    exact Tracked_sound f mag x ht h2
  | succ left ih =>
    intro iters mag x lt log ht xs h
    by_cases hm : mag > TOL
    · cases hstep : iterative_simplex_roots (range iters) f x lt with
      | error e =>
        rw [driverLoop_step_error range f left iters mag x lt log hm e hstep]
          at h
        cases h
      | ok r =>
        rw [driverLoop_step_ok range f left iters mag x lt log hm r hstep] at h
        obtain ⟨v, hv, h1, h2⟩ := step_ok_shape (range iters) f x lt r hstep
        exact ih _ _ _ _ _ ⟨x, v, hv, h1, h2⟩ xs h
    · rw [driverLoop_done range f _ iters mag x lt log hm] at h
      cases h
      exact Tracked_sound f mag x ht (not_lt.mp hm)

/-- Apart from the boundary case of C1, a returned point is a root within
tolerance: if `SimplexRoots` returns `xs`, then `f xs` succeeds with squared
magnitude `<= TOL`, or `f` took a squared magnitude of exactly `TOL` at some
point. -/
theorem SimplexRoots_sound_or_boundary (rnd : Nat → Nat)
    (range : Nat → RangeOracle) (f : VectorValuedFunction) (x0 : Vec)
    (bounds : Matrix) (xs : Vec)
    (h : SimplexRoots rnd range f x0 bounds = .ok xs) :
    SoundOrBoundary f xs := by
  rw [SimplexRoots_eq_result] at h
  by_cases hr : bounds.rows = x0.length
  · by_cases hc : bounds.cols = 2
    · cases h0 : f x0 with
      | error e =>
        rw [run_eval_error rnd range f x0 bounds hr hc e h0] at h
        cases h
      | ok output =>
        rcases hs : seedLoop rnd f bounds x0.length (List.range x0.length) 0
            [] [x0] with ⟨res, log⟩
        cases res with
        | error e =>
          rw [run_seed_error rnd range f x0 bounds hr hc output h0 e log hs]
            at h
          cases h
        | ok lt =>
          rw [run_seeded rnd range f x0 bounds hr hc output h0 lt log hs] at h
          exact driverLoop_sound range f MAX_ITERS 0 _ x0 lt log
            ⟨x0, output, h0, rfl, fun _ => rfl⟩ xs h
    · rw [run_cols rnd range f x0 bounds hr hc] at h
      cases h
  · rw [run_rows rnd range f x0 bounds hr] at h
    cases h

/-- An instance of `SimplexRoots_sound_or_boundary`: the run of C5. -/
theorem SimplexRoots_sound_or_boundary_witness :
    SimplexRoots (fun _ => 0) (fun _ => inOrder) test_1d [1]
        (NewDense 1 2 [-3 / 2, 10]) = .ok [2]
      ∧ SoundOrBoundary test_1d [2] :=
  ⟨test_1d_upper_run,
    SimplexRoots_sound_or_boundary (fun _ => 0) (fun _ => inOrder) test_1d [1]
      (NewDense 1 2 [-3 / 2, 10]) [2] test_1d_upper_run⟩

/-! ## Constant functions -/

theorem opposite_ne_sign (c : Vec) (hne : c ≠ []) :
    opposite_sign_int c ≠ sign_int c := by
  intro h
  have hb := congrArg (fun n => n.testBit 0) h
  simp only [sign_int_testBit, opposite_sign_int_testBit] at hb
  cases c with
  | nil => exact hne rfl
  | cons a t =>
    by_cases ha : a > 0
    · simp [ha, not_le.mpr ha] at hb
    · simp [ha, not_lt.mp ha] at hb

theorem KeysAre_insert (s : Nat) (lt : Table) (p : Vec) (m : ℚ)
    (h : KeysAre s lt) : KeysAre s (insert_into_lookup_table lt p s m) := by
  intro k hk
  rcases (mem_keys_insert lt p s m k).mp hk with h1 | h1
  · exact h1
  · exact h k h1

theorem KeysAre_nil (s : Nat) : KeysAre s [] := by
  intro k hk
  cases hk

theorem seedLoop_const (rnd : Nat → Nat) (c : Vec) (bounds : Matrix)
    (length : Nat) :
    ∀ (is : List Nat) (k : Nat) (lt : Table) (log : List Vec),
      KeysAre (sign_int c) lt →
      ∃ lt' log', seedLoop rnd (constF c) bounds length is k lt log
          = (.ok lt', log') ∧ KeysAre (sign_int c) lt' := by
  intro is
  induction is with
  | nil =>
    intro k lt log hlt
    exact ⟨lt, log, rfl, hlt⟩
  | cons i is ih =>
    intro k lt log hlt
    simp only [seedLoop, constF]
    apply ih
    exact KeysAre_insert _ _ _ _ (KeysAre_insert _ _ _ _ hlt)

/-- A scan over keys that all equal the signature `s`, started from a
non-negative distance, ends on `s`. -/
theorem fallbackScan_all_same (s : Nat) :
    ∀ (ks : List Nat) (st : Nat × Nat), (∀ k ∈ ks, k = s) → ks ≠ [] →
      0 ≤ asInt64 st.2 → fallbackScan s ks st = (s, 0) := by
  intro ks
  induction ks with
  | nil => intro st _ hne _; exact absurd rfl hne
  | cons k ks ih =>
    intro st hks _ hst
    have hk : k = s := hks k (List.mem_cons_self _ _)
    subst hk
    have h0 : asInt64 0 = 0 := by
      rw [asInt64_of_lt 0 (by norm_num)]
      rfl
    have hle : asInt64 (k ^^^ k) ≤ asInt64 st.2 := by
      rw [Nat.xor_self, h0]
      exact hst
    rw [fallbackScan_cons, if_pos hle, Nat.xor_self]
    cases ks with
    | nil => rfl
    | cons k' ks' =>
      exact ih (k, 0) (fun k'' hk'' => hks k'' (List.mem_cons_of_mem _ hk''))
        (List.cons_ne_nil _ _) (le_of_eq h0.symm)

/-- The opposite signature is a non-negative Go int when `c` has fewer than
64 components or its component 63 is positive. -/
theorem opposite_sign_int_nonneg (c : Vec)
    (hc : c.length < 64 ∨ 0 < c.getD 63 0) : opposite_sign_int c < 2 ^ 63 := by
  apply Nat.lt_pow_two_of_testBit
  intro i hi
  rw [opposite_sign_int_testBit]
  by_cases h63 : i = 63
  · subst h63
    rcases hc with h | h
    · have : ¬ 63 < c.length := by omega
      simp [-List.getD_eq_getElem?_getD, this]
    · simp [-List.getD_eq_getElem?_getD, h]
  · have : ¬ i < 64 := by omega
    simp [-List.getD_eq_getElem?_getD, this]

/-- On a table holding only the signature of `c`, a step of the constant
function `c` succeeds through the fallback and keeps the magnitude of `c`. -/
theorem step_const (range : RangeOracle) (c x : Vec) (lt : Table)
    (hc : c.length < 64 ∨ 0 < c.getD 63 0) (hm : SquaredMagnitude c > TOL)
    (hlt : KeysAre (sign_int c) lt) :
    ∃ x', iterative_simplex_roots range (constF c) x lt
      = .ok (SquaredMagnitude c, x',
          insert_into_lookup_table lt x (sign_int c) (SquaredMagnitude c)) := by
  have ho : opposite_sign_int c < 2 ^ 63 := opposite_sign_int_nonneg c hc
  have hne : c ≠ [] := by
    intro h
    rw [h] at hm
    have h0 : SquaredMagnitude [] = 0 := rfl
    rw [h0] at hm
    have : (0 : ℚ) < TOL := by unfold TOL; norm_num
    exact lt_asymm hm this
  have hnlt : ¬ SquaredMagnitude c < TOL := not_lt.mpr (le_of_lt hm)
  have hnone : tlookup
      (insert_into_lookup_table lt x (sign_int c) (SquaredMagnitude c))
      (opposite_sign_int c) = none := by
    apply (tlookup_eq_none_iff _ _).mpr
    intro hmem
    exact opposite_ne_sign c hne (KeysAre_insert _ _ _ _ hlt _ hmem)
  have hsome : tlookup
      (insert_into_lookup_table lt x (sign_int c) (SquaredMagnitude c))
      (sign_int c) ≠ none := by
    intro hcon
    exact (tlookup_eq_none_iff _ _).mp hcon
      ((mem_keys_insert lt x (sign_int c) _ (sign_int c)).mpr (Or.inl rfl))
  have hscan : fallbackScan (sign_int c)
      (range.1 (insert_into_lookup_table lt x (sign_int c)
        (SquaredMagnitude c)))
      (minusOne, opposite_sign_int c) = (sign_int c, 0) := by
    have hperm := range.2
      (insert_into_lookup_table lt x (sign_int c) (SquaredMagnitude c))
    apply fallbackScan_all_same
    · intro k hk
      exact KeysAre_insert _ _ _ _ hlt k (hperm.mem_iff.mp hk)
    · intro hnil
      have hmem : sign_int c ∈ range.1
          (insert_into_lookup_table lt x (sign_int c) (SquaredMagnitude c)) :=
        hperm.mem_iff.mpr
          ((mem_keys_insert lt x (sign_int c) _ (sign_int c)).mpr (Or.inl rfl))
      rw [hnil] at hmem
      cases hmem
    · rw [asInt64_of_lt _ ho]
      exact Int.natCast_nonneg _
  unfold iterative_simplex_roots
  simp only [constF, if_neg hnlt, hnone, hscan]
  cases hl : tlookup
      (insert_into_lookup_table lt x (sign_int c) (SquaredMagnitude c))
      (sign_int c) with
  | none => exact absurd hl hsome
  | some opp => exact ⟨midpoint x opp.vec, rfl⟩

theorem driverLoop_const (range : Nat → RangeOracle) (c : Vec)
    (hc : c.length < 64 ∨ 0 < c.getD 63 0) (hm : SquaredMagnitude c > TOL) :
    ∀ (left iters : Nat) (x : Vec) (lt : Table) (log : List Vec),
      KeysAre (sign_int c) lt →
      (driverLoop range (constF c) left iters (SquaredMagnitude c) x lt
          log).result = .error .notConverged
        ∧ (driverLoop range (constF c) left iters (SquaredMagnitude c) x lt
          log).steps = iters + left := by
  intro left
  induction left with
  | zero =>
    intro iters x lt log _
    simp [driverLoop, finish, hm]
  | succ left ih =>
    intro iters x lt log hlt
    obtain ⟨x', hstep⟩ := step_const (range iters) c x lt hc hm hlt
    rw [driverLoop_step_ok range (constF c) left iters _ x lt log hm _ hstep]
    obtain ⟨h1, h2⟩ := ih (iters + 1) x' _ (log ++ [x])
      (KeysAre_insert _ _ x (SquaredMagnitude c) hlt)
    exact ⟨h1, by rw [h2]; omega⟩

/-- C4 (counterexample): the constant function with the 64 components
`-1, ..., -1` has squared magnitude `64 > TOL`, the input is well-shaped, yet
`SimplexRoots` returns the internal "lookup table should be pre-populated"
error after a single step: the opposite signature has bit 63 set, so it is a
negative Go int and no XOR distance is `<=` to it. -/
theorem constant_dim64_not_nonconvergence :
    SquaredMagnitude (List.replicate 64 (-1)) > TOL
      ∧ (Matrix.mk 64 2 (fun _ _ => 0)).rows = (List.replicate 64 (0 : ℚ)).length
      ∧ (Matrix.mk 64 2 (fun _ _ => 0)).cols = 2
      ∧ SimplexRoots (fun _ => 0) (fun _ => inOrder)
          (constF (List.replicate 64 (-1))) (List.replicate 64 0)
          (Matrix.mk 64 2 (fun _ _ => 0))
          = .error (.emptyLookup 0 minusOne minusOne)
      ∧ (SimplexRootsRun (fun _ => 0) (fun _ => inOrder)
          (constF (List.replicate 64 (-1))) (List.replicate 64 0)
          (Matrix.mk 64 2 (fun _ _ => 0))).steps = 1 := by
  decide!

/-- C4 (amended): for every constant function `f(x) = c` with
`SquaredMagnitude c > TOL` whose opposite signature is a non-negative Go int
(`c` has fewer than 64 components, or `c[63] > 0`), every initial point, all
well-shaped bounds, every random outcome and every map iteration order,
`SimplexRoots` fails with the non-convergence error after exactly
`MAX_ITERS = 10000` invocations of the step function. -/
theorem SimplexRoots_constant_exhausts_budget (rnd : Nat → Nat)
    (range : Nat → RangeOracle) (c x0 : Vec) (bounds : Matrix)
    (hc : c.length < 64 ∨ 0 < c.getD 63 0) (hm : SquaredMagnitude c > TOL)
    (hr : bounds.rows = x0.length) (hcols : bounds.cols = 2) :
    SimplexRoots rnd range (constF c) x0 bounds = .error .notConverged
      ∧ (SimplexRootsRun rnd range (constF c) x0 bounds).steps = MAX_ITERS
      ∧ MAX_ITERS = 10000 := by
  obtain ⟨lt, log, hs, hlt⟩ := seedLoop_const rnd c bounds x0.length
    (List.range x0.length) 0 [] [x0] (KeysAre_nil _)
  rw [SimplexRoots_eq_result,
    run_seeded rnd range (constF c) x0 bounds hr hcols c rfl lt log hs]
  obtain ⟨h1, h2⟩ := driverLoop_const range c hc hm MAX_ITERS 0 x0 lt log hlt
  exact ⟨h1, by rw [h2]; omega, rfl⟩

/-- Witness for C4 (amended): the constant function `1` in one dimension. -/
theorem SimplexRoots_constant_exhausts_budget_witness :
    (([1] : Vec).length < 64 ∨ 0 < ([1] : Vec).getD 63 0)
      ∧ SquaredMagnitude [1] > TOL
      ∧ (NewDense 1 2 [0, 1]).rows = ([0] : Vec).length
      ∧ (NewDense 1 2 [0, 1]).cols = 2
      ∧ SimplexRoots (fun _ => 0) (fun _ => inOrder) (constF [1]) [0]
          (NewDense 1 2 [0, 1]) = .error .notConverged
      ∧ (SimplexRootsRun (fun _ => 0) (fun _ => inOrder) (constF [1]) [0]
          (NewDense 1 2 [0, 1])).steps = MAX_ITERS
      ∧ MAX_ITERS = 10000 :=
  ⟨Or.inl (by decide), by decide!, rfl, rfl,
    SimplexRoots_constant_exhausts_budget (fun _ => 0) (fun _ => inOrder) [1]
      [0] (NewDense 1 2 [0, 1]) (Or.inl (by decide)) (by decide!) rfl rfl⟩

/-- C10: `SquaredMagnitude v` is the sum over `i` of `v[i]^2`; it is `0` for
the zero vector of every dimension (the empty vector included), and negating
every component does not change it. -/
theorem SquaredMagnitude_spec (v : Vec) :
    SquaredMagnitude v = ∑ i ∈ Finset.range v.length, (v.getD i 0) ^ 2
      ∧ (∀ n : Nat, SquaredMagnitude (List.replicate n 0) = 0)
      ∧ SquaredMagnitude [] = 0
      ∧ SquaredMagnitude (v.map (fun a => -a)) = SquaredMagnitude v := by
  refine ⟨SquaredMagnitude_eq_sum v, ?_, rfl, ?_⟩
  · intro n
    rw [SquaredMagnitude_eq_sum]
    apply Finset.sum_eq_zero
    intro i _
    simp only [List.getD_eq_getElem?_getD, List.getElem?_replicate]
    split <;> simp
  · rw [SquaredMagnitude_eq_sum, SquaredMagnitude_eq_sum, List.length_map]
    apply Finset.sum_congr rfl
    intro i _
    have h : (v.map (fun a => -a)).getD i 0 = -(v.getD i 0) := by
      simp only [List.getD_eq_getElem?_getD, List.getElem?_map]
      cases v[i]? <;> simp
    rw [h]
    ring

/-- C9: for a vector of dimension `n < 63`, `sign_int` and
`opposite_sign_int` are disjoint, together they set exactly the low `n` bits,
and bit `i` of `sign_int v` is set iff `v[i] > 0`, bit `i` of
`opposite_sign_int v` iff `v[i] <= 0`; both are non-negative Go ints. -/
theorem sign_int_partition (v : Vec) (hn : v.length < 63) :
    sign_int v &&& opposite_sign_int v = 0
      ∧ sign_int v ||| opposite_sign_int v = 2 ^ v.length - 1
      ∧ (∀ i, i < v.length →
          (((sign_int v).testBit i = true ↔ v.getD i 0 > 0)
            ∧ ((opposite_sign_int v).testBit i = true ↔ v.getD i 0 ≤ 0)))
      ∧ (0 ≤ asInt64 (sign_int v) ∧ 0 ≤ asInt64 (opposite_sign_int v)) := by
  refine ⟨?_, ?_, ?_, ?_, ?_⟩
  · apply Nat.eq_of_testBit_eq
    intro i
    rw [Nat.testBit_and, sign_int_testBit, opposite_sign_int_testBit]
    by_cases h : v.getD i 0 > 0
    · simp [-List.getD_eq_getElem?_getD, h, not_le.mpr h]
    · simp [-List.getD_eq_getElem?_getD, h]
  · apply Nat.eq_of_testBit_eq
    intro i
    rw [Nat.testBit_or, sign_int_testBit, opposite_sign_int_testBit,
      Nat.testBit_two_pow_sub_one]
    by_cases hi : i < v.length
    · have h64 : i < 64 := by omega
      by_cases h : v.getD i 0 > 0
      · simp [-List.getD_eq_getElem?_getD, h, hi, h64]
      · simp [-List.getD_eq_getElem?_getD, h, hi, h64, not_lt.mp h]
    · simp [-List.getD_eq_getElem?_getD, hi]
  · intro i hi
    have h64 : i < 64 := by omega
    rw [sign_int_testBit, opposite_sign_int_testBit]
    simp [-List.getD_eq_getElem?_getD, hi, h64]
  · have := sign_int_lt v 63 (by omega)
    unfold asInt64
    rw [if_pos this]
    exact Int.natCast_nonneg _
  · have := opposite_sign_int_lt v 63 (by omega)
    unfold asInt64
    rw [if_pos this]
    exact Int.natCast_nonneg _

/-- Witness for C9 at the vector `(3, -1/2, 0)`: the signature is `1`, the
opposite signature `6`. -/
theorem sign_int_partition_witness :
    ([3, -1 / 2, 0] : Vec).length < 63
      ∧ sign_int [3, -1 / 2, 0] &&& opposite_sign_int [3, -1 / 2, 0] = 0
      ∧ sign_int [3, -1 / 2, 0] ||| opposite_sign_int [3, -1 / 2, 0]
          = 2 ^ ([3, -1 / 2, 0] : Vec).length - 1 :=
  ⟨by decide,
    (sign_int_partition [3, -1 / 2, 0] (by decide)).1,
    (sign_int_partition [3, -1 / 2, 0] (by decide)).2.1⟩

/-! ## One insert, one step -/

/-- C11: `insert_into_lookup_table lt p s m` is the table with `s` mapped to
`(m, p)` when `s` was absent or the magnitude stored under `s` was `>= m`, and
the table itself otherwise; in both cases the entry under every other
signature is unchanged and every signature present before is still
present. -/
theorem insert_into_lookup_table_frame (lt : Table) (p : Vec) (s : Nat)
    (m : ℚ) :
    ((tlookup lt s = none ∨ ∃ e, tlookup lt s = some e ∧ e.mag ≥ m) →
        insert_into_lookup_table lt p s m = tstore lt s ⟨m, p⟩
          ∧ tlookup (insert_into_lookup_table lt p s m) s = some ⟨m, p⟩)
      ∧ ((∃ e, tlookup lt s = some e ∧ ¬ e.mag ≥ m) →
          insert_into_lookup_table lt p s m = lt)
      ∧ (∀ s', s' ≠ s →
          tlookup (insert_into_lookup_table lt p s m) s' = tlookup lt s')
      ∧ (∀ k, k ∈ keys lt → k ∈ keys (insert_into_lookup_table lt p s m)) := by
  refine ⟨?_, ?_, ?_, ?_⟩
  · intro h
    have heq : insert_into_lookup_table lt p s m = tstore lt s ⟨m, p⟩ := by
      unfold insert_into_lookup_table
      rcases h with h | ⟨e, he, hm⟩
      · rw [h]
      · rw [he]
        simp only [hm, if_true]
    refine ⟨heq, ?_⟩
    rw [heq, tlookup_tstore, if_pos rfl]
  · rintro ⟨e, he, hm⟩
    unfold insert_into_lookup_table
    rw [he]
    simp only [hm, if_false]
  · intro s' hs'
    rw [tlookup_insert, if_neg (fun h => hs' h.symm)]
  · intro k hk
    exact (mem_keys_insert lt p s m k).mpr (Or.inr hk)

theorem midpoint_length (x p : Vec) :
    (midpoint x p).length = min x.length p.length := by
  simp [midpoint]

theorem midpoint_getD (x p : Vec) (i : Nat) (hx : i < x.length)
    (hp : i < p.length) :
    (midpoint x p).getD i 0 = (x.getD i 0 + p.getD i 0) / 2 := by
  simp [midpoint, List.getD_eq_getElem?_getD, List.getElem?_map,
    List.getElem?_zipWith, List.getElem?_eq_getElem hx,
    List.getElem?_eq_getElem hp]

/-- C13: if `f x` succeeds with `SquaredMagnitude (f x) >= TOL` and the table,
after the insertion of `x` under `sign_int (f x)`, has an entry `opp` under
`opposite_sign_int (f x)`, the step returns no error, the magnitude
`SquaredMagnitude (f x)`, the input table with `x` inserted, and the next
point whose coordinate `i` is `(x[i] + opp.vec[i]) / 2`. -/
theorem step_midpoint_of_opposite (range : RangeOracle)
    (f : VectorValuedFunction) (x : Vec) (lt : Table) (v : Vec)
    (opp : FunctionCall) (hv : f x = .ok v) (hm : SquaredMagnitude v ≥ TOL)
    (hopp : tlookup
      (insert_into_lookup_table lt x (sign_int v) (SquaredMagnitude v))
      (opposite_sign_int v) = some opp) :
    iterative_simplex_roots range f x lt
        = .ok (SquaredMagnitude v, midpoint x opp.vec,
            insert_into_lookup_table lt x (sign_int v) (SquaredMagnitude v))
      ∧ (midpoint x opp.vec).length = min x.length opp.vec.length
      ∧ ∀ i, i < x.length → i < opp.vec.length →
          (midpoint x opp.vec).getD i 0 = (x.getD i 0 + opp.vec.getD i 0) / 2 := by
  refine ⟨?_, midpoint_length x opp.vec, fun i hx hp => midpoint_getD x opp.vec i hx hp⟩
  unfold iterative_simplex_roots
  simp only [hv, if_neg (not_lt.mpr hm), hopp]

/-- Witness for C13: `test_1d` at `1` with the corner `10` stored under the
opposite signature `1`; the next point is `11/2`. -/
theorem step_midpoint_of_opposite_witness :
    test_1d [1] = .ok [-3]
      ∧ SquaredMagnitude [-3] ≥ TOL
      ∧ iterative_simplex_roots inOrder test_1d [1] [(1, ⟨9216, [10]⟩)]
          = .ok (SquaredMagnitude [-3], midpoint [1] [10],
              insert_into_lookup_table [(1, ⟨9216, [10]⟩)] [1] (sign_int [-3])
                (SquaredMagnitude [-3]))
      ∧ midpoint [1] [10] = [11 / 2] :=
  ⟨by decide!, by decide!,
    (step_midpoint_of_opposite inOrder test_1d [1] [(1, ⟨9216, [10]⟩)] [-3]
      ⟨9216, [10]⟩ (by decide!) (by decide!) (by decide!)).1,
    by decide!⟩

/-- C14: if `f x` succeeds with `SquaredMagnitude (f x) < TOL`, the step
returns no error, the magnitude `SquaredMagnitude (f x)`, the point `x` itself
and the table obtained by inserting `x` under `sign_int (f x)` with that
magnitude. -/
theorem step_converged (range : RangeOracle) (f : VectorValuedFunction)
    (x : Vec) (lt : Table) (v : Vec) (hv : f x = .ok v)
    (hm : SquaredMagnitude v < TOL) :
    iterative_simplex_roots range f x lt
      = .ok (SquaredMagnitude v, x,
          insert_into_lookup_table lt x (sign_int v) (SquaredMagnitude v)) := by
  unfold iterative_simplex_roots
  simp only [hv, if_pos hm]

/-- Witness for C14: `test_1d` at its root `2`, on the empty table. -/
theorem step_converged_witness :
    test_1d [2] = .ok [0]
      ∧ SquaredMagnitude [0] < TOL
      ∧ iterative_simplex_roots inOrder test_1d [2] []
          = .ok (SquaredMagnitude [0], [2],
              insert_into_lookup_table [] [2] (sign_int [0])
                (SquaredMagnitude [0])) :=
  ⟨by decide!, by decide!,
    step_converged inOrder test_1d [2] [] [0] (by decide!) (by decide!)⟩

/-! ## The fallback: which entry it selects, and whether it can fail -/

/-- C17 (amended): for an output `f x` of dimension `n < 63` and a table
whose signatures are all non-negative Go ints (as are the signatures of all
outputs with fewer than 64 components), the fallback scan ends with
`min_idx = sign_int (f x)` and `min_value = 0` for every enumeration order of
the map and whatever other such entries the table holds; so when the opposite
signature is absent the step forms the midpoint with the entry stored under
the current point's own signature. -/
theorem fallback_ends_on_own_signature (range : RangeOracle)
    (f : VectorValuedFunction) (x : Vec) (lt : Table) (v : Vec)
    (hv : f x = .ok v) (hn : v.length < 63) (hlt : KeysOK lt)
    (hm : SquaredMagnitude v ≥ TOL)
    (habs : tlookup
      (insert_into_lookup_table lt x (sign_int v) (SquaredMagnitude v))
      (opposite_sign_int v) = none) :
    fallbackScan (sign_int v)
        (range.1
          (insert_into_lookup_table lt x (sign_int v) (SquaredMagnitude v)))
        (minusOne, opposite_sign_int v) = (sign_int v, 0)
      ∧ ∃ own, tlookup
            (insert_into_lookup_table lt x (sign_int v) (SquaredMagnitude v))
            (sign_int v) = some own
          ∧ iterative_simplex_roots range f x lt
              = .ok (SquaredMagnitude v, midpoint x own.vec,
                  insert_into_lookup_table lt x (sign_int v)
                    (SquaredMagnitude v)) := by
  have hscan := fallback_selects_own range lt x v (SquaredMagnitude v) hlt
    (by omega)
  refine ⟨hscan, ?_⟩
  cases hl : tlookup
      (insert_into_lookup_table lt x (sign_int v) (SquaredMagnitude v))
      (sign_int v) with
  | none =>
    exact absurd ((mem_keys_insert lt x (sign_int v) _ (sign_int v)).mpr
      (Or.inl rfl)) ((tlookup_eq_none_iff _ _).mp hl)
  | some own =>
    refine ⟨own, rfl, ?_⟩
    unfold iterative_simplex_roots
    simp only [hv, if_neg (not_lt.mpr hm), habs, hscan, hl]

theorem KeysOK_seededIndep : KeysOK seededIndep := by
  intro k hk
  simp only [keys, seededIndep, List.map_cons, List.map_nil, List.mem_cons,
    List.mem_singleton, List.not_mem_nil, or_false] at hk
  rcases hk with h | h | h <;> rw [h] <;> norm_num

/-- Witness for C17 (amended): `test_2d_independent` at `(1, 1)` on `seededIndep`; the
signature is `0`, the opposite signature `3` is absent, the scan ends on
`0`. -/
theorem fallback_ends_on_own_signature_witness :
    test_2d_independent [1, 1] = .ok [-6, 0]
      ∧ ([-6, 0] : Vec).length < 63
      ∧ SquaredMagnitude [-6, 0] ≥ TOL
      ∧ tlookup (insert_into_lookup_table seededIndep [1, 1] (sign_int [-6, 0])
          (SquaredMagnitude [-6, 0])) (opposite_sign_int [-6, 0]) = none
      ∧ fallbackScan (sign_int [-6, 0])
          (inOrder.1 (insert_into_lookup_table seededIndep [1, 1]
            (sign_int [-6, 0]) (SquaredMagnitude [-6, 0])))
          (minusOne, opposite_sign_int [-6, 0]) = (sign_int [-6, 0], 0) :=
  ⟨by decide!, by decide, by decide!, by decide!,
    (fallback_ends_on_own_signature inOrder test_2d_independent [1, 1]
      seededIndep [-6, 0] (by decide!) (by decide) KeysOK_seededIndep
      (by decide!) (by decide!)).1⟩

/-- A scan started on a key of `K` over keys of `K` ends on a key of `K`. -/
theorem fallbackScan_mem (s : Nat) (K : List Nat) :
    ∀ (ks : List Nat) (st : Nat × Nat), (∀ k ∈ ks, k ∈ K) → st.1 ∈ K →
      (fallbackScan s ks st).1 ∈ K := by
  intro ks
  induction ks with
  | nil => intro st _ h; exact h
  | cons k ks ih =>
    intro st hks hst
    rw [fallbackScan_cons]
    have hrest : ∀ k' ∈ ks, k' ∈ K :=
      fun k' hk' => hks k' (List.mem_cons_of_mem _ hk')
    by_cases hle : asInt64 (s ^^^ k) ≤ asInt64 st.2
    · rw [if_pos hle]
      exact ih _ hrest (hks k (List.mem_cons_self _ _))
    · rw [if_neg hle]
      exact ih _ hrest hst

/-- A scan over keys of `K` that include `s`, started from a non-negative
distance, ends on a key of `K`. -/
theorem fallbackScan_takes_key (s : Nat) (K : List Nat) :
    ∀ (ks : List Nat) (st : Nat × Nat), (∀ k ∈ ks, k ∈ K) → s ∈ ks →
      0 ≤ asInt64 st.2 → (fallbackScan s ks st).1 ∈ K := by
  intro ks
  induction ks with
  | nil => intro st _ hmem _; cases hmem
  | cons k ks ih =>
    intro st hks hmem hst
    rw [fallbackScan_cons]
    have hrest : ∀ k' ∈ ks, k' ∈ K :=
      fun k' hk' => hks k' (List.mem_cons_of_mem _ hk')
    by_cases hle : asInt64 (s ^^^ k) ≤ asInt64 st.2
    · rw [if_pos hle]
      exact fallbackScan_mem s K ks _ hrest (hks k (List.mem_cons_self _ _))
    · rw [if_neg hle]
      have hk : k ≠ s := by
        intro h
        apply hle
        rw [h, Nat.xor_self, asInt64_of_lt 0 (by norm_num)]
        exact hst
      have hmem' : s ∈ ks := by
        rcases List.mem_cons.mp hmem with h | h
        · exact absurd h.symm hk
        · exact h
      exact ih st hrest hmem' hst

/-- A step whose output has a non-negative opposite signature does not return
the lookup-table error, whatever the table. -/
theorem step_no_emptyLookup (range : RangeOracle) (f : VectorValuedFunction)
    (x : Vec) (lt : Table) (hf : OppositeNonneg f) (a b c : Nat) :
    iterative_simplex_roots range f x lt ≠ .error (.emptyLookup a b c) := by
  unfold iterative_simplex_roots
  cases hv : f x with
  | error e => simp
  | ok v =>
    simp only
    split
    · simp
    · split
      · simp
      · have hperm := range.2
          (insert_into_lookup_table lt x (sign_int v) (SquaredMagnitude v))
        have hkey : (fallbackScan (sign_int v)
            (range.1 (insert_into_lookup_table lt x (sign_int v)
              (SquaredMagnitude v)))
            (minusOne, opposite_sign_int v)).1
            ∈ keys (insert_into_lookup_table lt x (sign_int v)
              (SquaredMagnitude v)) := by
          apply fallbackScan_takes_key
          · intro k hk
            exact hperm.mem_iff.mp hk
          · exact hperm.mem_iff.mpr
              ((mem_keys_insert lt x (sign_int v) _ (sign_int v)).mpr
                (Or.inl rfl))
          · rw [asInt64_of_lt _ (opposite_sign_int_nonneg v (hf x v hv))]
            exact Int.natCast_nonneg _
        split
        · simp
        · rename_i hnone
          exact absurd hkey ((tlookup_eq_none_iff _ _).mp hnone)

theorem seedLoop_error_is_eval (rnd : Nat → Nat) (f : VectorValuedFunction)
    (bounds : Matrix) (length : Nat) :
    ∀ (is : List Nat) (k : Nat) (lt : Table) (log : List Vec) (e : Error),
      (seedLoop rnd f bounds length is k lt log).1 = .error e →
        ∃ msg, e = .eval msg := by
  intro is
  induction is with
  | nil =>
    intro k lt log e h
    simp [seedLoop] at h
  | cons i is ih =>
    intro k lt log e h
    cases h1 : f (cornerPair rnd bounds length i k).1 with
    | error msg =>
      simp only [seedLoop, h1] at h
      cases h
      exact ⟨msg, rfl⟩
    | ok lower_res =>
      cases h2 : f (cornerPair rnd bounds length i k).2.1 with
      | error msg =>
        simp only [seedLoop, h1, h2] at h
        cases h
        exact ⟨msg, rfl⟩
      | ok upper_res =>
        simp only [seedLoop, h1, h2] at h
        exact ih _ _ _ e h

theorem driverLoop_no_emptyLookup (range : Nat → RangeOracle)
    (f : VectorValuedFunction) (hf : OppositeNonneg f) (a b c : Nat) :
    ∀ (left iters : Nat) (mag : ℚ) (x : Vec) (lt : Table) (log : List Vec),
      (driverLoop range f left iters mag x lt log).result
        ≠ .error (.emptyLookup a b c) := by
  intro left
  induction left with
  | zero =>
    intro iters mag x lt log
    rw [driverLoop_zero]
    unfold finish
    simp only
    split <;> simp
  | succ left ih =>
    intro iters mag x lt log
    by_cases hm : mag > TOL
    · cases hstep : iterative_simplex_roots (range iters) f x lt with
      | error e =>
        rw [driverLoop_step_error range f left iters mag x lt log hm e hstep]
        intro h
        simp only at h
        cases h
        exact step_no_emptyLookup (range iters) f x lt hf a b c hstep
      | ok r =>
        rw [driverLoop_step_ok range f left iters mag x lt log hm r hstep]
        exact ih _ _ _ _ _
    · rw [driverLoop_done range f _ iters mag x lt log hm]
      simp

/-- At dimension 64 the lookup-table error is reachable: for the constant
function whose value has 64 components, the last one negative, the step on the
empty table returns it, and so does `SimplexRoots` on a well-shaped
64-dimensional input. -/
theorem lookup_error_reachable_dim64 :
    c64.length = 64
      ∧ iterative_simplex_roots inOrder (constF c64) (List.replicate 64 0) []
          = .error (.emptyLookup (2 ^ 63 - 1) minusOne (2 ^ 63))
      ∧ (Matrix.mk 64 2 (fun _ _ => 0)).rows = (List.replicate 64 (0 : ℚ)).length
      ∧ (Matrix.mk 64 2 (fun _ _ => 0)).cols = 2
      ∧ SimplexRoots (fun _ => 0) (fun _ => inOrder) (constF c64)
          (List.replicate 64 0) (Matrix.mk 64 2 (fun _ _ => 0))
          = .error (.emptyLookup (2 ^ 63 - 1) minusOne (2 ^ 63)) := by
  decide!

/-- When the opposite signature of every output of `f` is a non-negative Go
int (the output has fewer than 64 components, or its component 63 is
positive), the step never returns the "lookup table should be pre-populated"
error, for every `x` and every input table, the empty one included, and
`SimplexRoots` never returns it for any initial point, bounds, random outcome
and map iteration order. -/
theorem lookup_error_unreachable (f : VectorValuedFunction)
    (hf : OppositeNonneg f) :
    (∀ (range : RangeOracle) (x : Vec) (lt : Table) (a b c : Nat),
        iterative_simplex_roots range f x lt ≠ .error (.emptyLookup a b c))
      ∧ ∀ (rnd : Nat → Nat) (range : Nat → RangeOracle) (x0 : Vec)
          (bounds : Matrix) (a b c : Nat),
          SimplexRoots rnd range f x0 bounds ≠ .error (.emptyLookup a b c) := by
  refine ⟨fun range x lt a b c => step_no_emptyLookup range f x lt hf a b c, ?_⟩
  intro rnd range x0 bounds a b c
  rw [SimplexRoots_eq_result]
  by_cases hr : bounds.rows = x0.length
  · by_cases hc : bounds.cols = 2
    · cases h0 : f x0 with
      | error e =>
        rw [run_eval_error rnd range f x0 bounds hr hc e h0]
        simp
      | ok output =>
        rcases hs : seedLoop rnd f bounds x0.length (List.range x0.length) 0
            [] [x0] with ⟨res, log⟩
        cases res with
        | error e =>
          rw [run_seed_error rnd range f x0 bounds hr hc output h0 e log hs]
          obtain ⟨msg, hmsg⟩ := seedLoop_error_is_eval rnd f bounds x0.length
            (List.range x0.length) 0 [] [x0] e (by rw [hs])
          rw [hmsg]
          simp
        | ok lt =>
          rw [run_seeded rnd range f x0 bounds hr hc output h0 lt log hs]
          exact driverLoop_no_emptyLookup range f hf a b c _ _ _ _ _ _
    · rw [run_cols rnd range f x0 bounds hr hc]
      simp
  · rw [run_rows rnd range f x0 bounds hr]
    simp

/-! ## Stall -/

theorem midpoint_self (x : Vec) : midpoint x x = x := by
  unfold midpoint
  induction x with
  | nil => rfl
  | cons a t ih =>
    simp only [List.zipWith_cons_cons, List.map_cons, ih]
    congr 1
    ring

theorem tstore_same (lt : Table) (k : Nat) (v : FunctionCall)
    (h : tlookup lt k = some v) : tstore lt k v = lt := by
  induction lt with
  | nil => simp [tlookup] at h
  | cons e rest ih =>
    obtain ⟨a, w⟩ := e
    by_cases hk : a = k
    · subst hk
      simp only [tlookup, if_true] at h
      cases h
      simp [tstore]
    · simp only [tlookup, hk, if_false] at h
      simp [tstore, hk, ih h]

/-- Inserting `x` again with the magnitude already stored for it changes
nothing. -/
theorem insert_same (lt : Table) (x : Vec) (s : Nat) (m : ℚ)
    (h : tlookup lt s = some ⟨m, x⟩) :
    insert_into_lookup_table lt x s m = lt := by
  unfold insert_into_lookup_table
  rw [h]
  simp only [ge_iff_le, le_refl, if_true]
  exact tstore_same lt s _ h

/-- Under the stall condition the inserted table stores `x` itself under the
current signature. -/
theorem stall_own_entry (lt : Table) (x : Vec) (s : Nat) (m : ℚ)
    (hown : ∀ e, tlookup lt s = some e → ¬ e.mag < m) :
    tlookup (insert_into_lookup_table lt x s m) s = some ⟨m, x⟩ := by
  rw [tlookup_insert, if_pos rfl]
  cases hl : tlookup lt s with
  | none => rfl
  | some e =>
    have : e.mag ≥ m := not_lt.mp (hown e hl)
    simp only [this, if_true]

theorem nonempty_of_magnitude (v : Vec) (hm : SquaredMagnitude v > TOL) :
    v ≠ [] := by
  intro h
  rw [h] at hm
  have h0 : SquaredMagnitude [] = 0 := rfl
  rw [h0] at hm
  have : (0 : ℚ) < TOL := by unfold TOL; norm_num
  exact lt_asymm hm this

/-- The step under the stall condition. -/
theorem stall_step (range : RangeOracle) (f : VectorValuedFunction) (x : Vec)
    (lt : Table) (v : Vec) (hv : f x = .ok v) (hn : v.length < 64)
    (hlt : KeysOK lt) (hm : SquaredMagnitude v > TOL)
    (hopp : tlookup lt (opposite_sign_int v) = none)
    (hown : ∀ e, tlookup lt (sign_int v) = some e →
      ¬ e.mag < SquaredMagnitude v) :
    iterative_simplex_roots range f x lt
      = .ok (SquaredMagnitude v, x,
          insert_into_lookup_table lt x (sign_int v) (SquaredMagnitude v)) := by
  have hne := opposite_ne_sign v (nonempty_of_magnitude v hm)
  have hopp' : tlookup
      (insert_into_lookup_table lt x (sign_int v) (SquaredMagnitude v))
      (opposite_sign_int v) = none := by
    rw [tlookup_insert, if_neg (fun h => hne h.symm)]
    exact hopp
  have hent := stall_own_entry lt x (sign_int v) (SquaredMagnitude v) hown
  unfold iterative_simplex_roots
  simp only [hv, if_neg (not_lt.mpr (le_of_lt hm)), hopp',
    fallback_selects_own range lt x v _ hlt hn, hent, midpoint_self]

theorem driverLoop_stall_evals (range : Nat → RangeOracle)
    (f : VectorValuedFunction) (x : Vec) (lt : Table) (m : ℚ) (hm : m > TOL)
    (hstep : ∀ i, iterative_simplex_roots (range i) f x lt = .ok (m, x, lt)) :
    ∀ (left iters : Nat) (log : List Vec),
      (driverLoop range f left iters m x lt log).evals
        = log ++ List.replicate left x := by
  intro left
  induction left with
  | zero =>
    intro iters log
    simp [driverLoop]
  | succ left ih =>
    intro iters log
    rw [driverLoop_step_ok range f left iters m x lt log hm _ (hstep iters),
      ih (iters + 1) (log ++ [x])]
    simp [List.replicate_succ]

/-- C18 (counterexample): the constant function `allNeg64` at the initial
point of a 64-dimensional run, with the table its seeding produces: the
squared magnitude is above `TOL`, the opposite signature is absent and the
entry under the current signature is not smaller, yet the step does not
return `x`: it fails with the lookup-table error. -/
theorem stall_condition_dim64_step_fails :
    constF allNeg64 (List.replicate 64 0) = .ok allNeg64
      ∧ (seedLoop (fun _ => 0) (constF allNeg64) (Matrix.mk 64 2 (fun _ _ => 0))
          64 (List.range 64) 0 [] [List.replicate 64 0]).1 = .ok seededNeg64
      ∧ SquaredMagnitude allNeg64 > TOL
      ∧ tlookup seededNeg64 (opposite_sign_int allNeg64) = none
      ∧ tlookup seededNeg64 (sign_int allNeg64)
          = some ⟨64, List.replicate 64 0⟩
      ∧ ¬ (64 : ℚ) < SquaredMagnitude allNeg64
      ∧ iterative_simplex_roots inOrder (constF allNeg64) (List.replicate 64 0)
          seededNeg64 = .error (.emptyLookup 0 minusOne minusOne) := by
  decide!

/-- C18 (amended): let `f x` have fewer than 64 components and let every
signature in the table be a non-negative Go int.  If
`SquaredMagnitude (f x) > TOL`, the table has no entry under
`opposite_sign_int (f x)` and no entry under `sign_int (f x)` with a strictly
smaller magnitude, then the step returns `x` itself as the next point, for
every map iteration order, and the same condition holds for the returned
table; so from such a state the driver loop evaluates `f` at `x` in every
remaining iteration and ends with the non-convergence error, and so does
`SimplexRoots` when the condition holds at the initial point with the seeded
table. -/
theorem stall_is_permanent (f : VectorValuedFunction) (x : Vec) (lt : Table)
    (v : Vec) (hv : f x = .ok v) (hn : v.length < 64) (hlt : KeysOK lt)
    (hm : SquaredMagnitude v > TOL)
    (hopp : tlookup lt (opposite_sign_int v) = none)
    (hown : ∀ e, tlookup lt (sign_int v) = some e →
      ¬ e.mag < SquaredMagnitude v) :
    (∀ range : RangeOracle, iterative_simplex_roots range f x lt
        = .ok (SquaredMagnitude v, x,
            insert_into_lookup_table lt x (sign_int v) (SquaredMagnitude v)))
      ∧ (KeysOK
            (insert_into_lookup_table lt x (sign_int v) (SquaredMagnitude v))
          ∧ tlookup
              (insert_into_lookup_table lt x (sign_int v) (SquaredMagnitude v))
              (opposite_sign_int v) = none
          ∧ ∀ e, tlookup
              (insert_into_lookup_table lt x (sign_int v) (SquaredMagnitude v))
              (sign_int v) = some e → ¬ e.mag < SquaredMagnitude v)
      ∧ (∀ (range : Nat → RangeOracle) (left iters : Nat) (mag : ℚ)
          (log : List Vec), mag > TOL →
          (driverLoop range f left iters mag x lt log).result
              = .error .notConverged
            ∧ (driverLoop range f left iters mag x lt log).evals
              = log ++ List.replicate left x
            ∧ (driverLoop range f left iters mag x lt log).steps
              = iters + left)
      ∧ ∀ (rnd : Nat → Nat) (range : Nat → RangeOracle) (bounds : Matrix)
          (log : List Vec), bounds.rows = x.length → bounds.cols = 2 →
          seedLoop rnd f bounds x.length (List.range x.length) 0 [] [x]
            = (.ok lt, log) →
          SimplexRoots rnd range f x bounds = .error .notConverged := by
  have hs : sign_int v < 2 ^ 63 := sign_int_lt v 63 (by omega)
  have hne := opposite_ne_sign v (nonempty_of_magnitude v hm)
  have hent := stall_own_entry lt x (sign_int v) (SquaredMagnitude v) hown
  have hlt' := KeysOK_insert lt x (sign_int v) (SquaredMagnitude v) hlt hs
  have hopp' : tlookup
      (insert_into_lookup_table lt x (sign_int v) (SquaredMagnitude v))
      (opposite_sign_int v) = none := by
    rw [tlookup_insert, if_neg (fun h => hne h.symm)]
    exact hopp
  have hown' : ∀ e, tlookup
      (insert_into_lookup_table lt x (sign_int v) (SquaredMagnitude v))
      (sign_int v) = some e → ¬ e.mag < SquaredMagnitude v := by
    intro e he
    rw [hent] at he
    cases he
    exact lt_irrefl _
  have hstep : ∀ range : RangeOracle, iterative_simplex_roots range f x lt
      = .ok (SquaredMagnitude v, x,
          insert_into_lookup_table lt x (sign_int v) (SquaredMagnitude v)) :=
    fun range => stall_step range f x lt v hv hn hlt hm hopp hown
  have hfix : ∀ range : RangeOracle, iterative_simplex_roots range f x
      (insert_into_lookup_table lt x (sign_int v) (SquaredMagnitude v))
      = .ok (SquaredMagnitude v, x,
          insert_into_lookup_table lt x (sign_int v) (SquaredMagnitude v)) := by
    intro range
    have h := stall_step range f x _ v hv hn hlt' hm hopp' hown'
    rw [insert_same _ x (sign_int v) (SquaredMagnitude v) hent] at h
    exact h
  have hloop : ∀ (range : Nat → RangeOracle) (left iters : Nat) (mag : ℚ)
      (log : List Vec), mag > TOL →
      (driverLoop range f left iters mag x lt log).result
          = .error .notConverged
        ∧ (driverLoop range f left iters mag x lt log).evals
          = log ++ List.replicate left x
        ∧ (driverLoop range f left iters mag x lt log).steps
          = iters + left := by
    intro range left iters mag log hmag
    cases left with
    | zero =>
      rw [driverLoop_zero]
      simp [finish, hmag]
    | succ left =>
      rw [driverLoop_step_ok range f left iters mag x lt log hmag _
        (hstep (range iters))]
      obtain ⟨h1, h2⟩ := driverLoop_stall range f x _ (SquaredMagnitude v) hm
        (fun i => hfix (range i)) left (iters + 1) (log ++ [x])
      have h3 := driverLoop_stall_evals range f x _ (SquaredMagnitude v) hm
        (fun i => hfix (range i)) left (iters + 1) (log ++ [x])
      refine ⟨h1, ?_, by rw [h2]; omega⟩
      rw [h3]
      simp [List.replicate_succ]
  refine ⟨hstep, ⟨hlt', hopp', hown'⟩, hloop, ?_⟩
  intro rnd range bounds log hr hc hseed
  rw [SimplexRoots_eq_result,
    run_seeded rnd range f x bounds hr hc v hv lt log hseed]
  exact (hloop range MAX_ITERS 0 (SquaredMagnitude v) log hm).1

theorem seededIndep_own :
    tlookup seededIndep (sign_int [-6, 0])
      = some ⟨51649 / 64, [-1, 7 / 2]⟩ := by
  decide!

/-- Witness for C18 (amended): `test_2d_independent` at `(1, 1)` on
`seededIndep` (the failing input of C6). -/
theorem stall_is_permanent_witness :
    test_2d_independent [1, 1] = .ok [-6, 0]
      ∧ SquaredMagnitude [-6, 0] > TOL
      ∧ tlookup seededIndep (opposite_sign_int [-6, 0]) = none
      ∧ ∀ range : RangeOracle,
          iterative_simplex_roots range test_2d_independent [1, 1] seededIndep
            = .ok (SquaredMagnitude [-6, 0], [1, 1],
                insert_into_lookup_table seededIndep [1, 1] (sign_int [-6, 0])
                  (SquaredMagnitude [-6, 0])) :=
  ⟨by decide!, by decide!, by decide!,
    (stall_is_permanent test_2d_independent [1, 1] seededIndep [-6, 0]
      (by decide!) (by decide) KeysOK_seededIndep (by decide!) (by decide!)
      (fun e he => by
        rw [seededIndep_own] at he
        cases he
        decide!)).1⟩

/-! ## Iteration budget -/

theorem driverLoop_steps_le (range : Nat → RangeOracle)
    (f : VectorValuedFunction) :
    ∀ (left iters : Nat) (mag : ℚ) (x : Vec) (lt : Table) (log : List Vec),
      (driverLoop range f left iters mag x lt log).steps ≤ iters + left := by
  intro left
  induction left with
  | zero =>
    intro iters mag x lt log
    rw [driverLoop_zero]
    exact le_refl _
  | succ left ih =>
    intro iters mag x lt log
    by_cases hm : mag > TOL
    · cases hstep : iterative_simplex_roots (range iters) f x lt with
      | error e =>
        rw [driverLoop_step_error range f left iters mag x lt log hm e hstep]
        simp only
        omega
      | ok r =>
        rw [driverLoop_step_ok range f left iters mag x lt log hm r hstep]
        have := ih (iters + 1) r.1 r.2.1 r.2.2 (log ++ [x])
        omega
    · rw [driverLoop_done range f _ iters mag x lt log hm]
      simp only
      omega

theorem run_steps_le (rnd : Nat → Nat) (range : Nat → RangeOracle)
    (f : VectorValuedFunction) (x0 : Vec) (bounds : Matrix) :
    (SimplexRootsRun rnd range f x0 bounds).steps ≤ MAX_ITERS := by
  by_cases hr : bounds.rows = x0.length
  · by_cases hc : bounds.cols = 2
    · cases h0 : f x0 with
      | error e =>
        rw [run_eval_error rnd range f x0 bounds hr hc e h0]
        exact Nat.zero_le _
      | ok output =>
        rcases hs : seedLoop rnd f bounds x0.length (List.range x0.length) 0
            [] [x0] with ⟨res, log⟩
        cases res with
        | error e =>
          rw [run_seed_error rnd range f x0 bounds hr hc output h0 e log hs]
          exact Nat.zero_le _
        | ok lt =>
          rw [run_seeded rnd range f x0 bounds hr hc output h0 lt log hs]
          have := driverLoop_steps_le range f MAX_ITERS 0
            (SquaredMagnitude output) x0 lt log
          omega
    · rw [run_cols rnd range f x0 bounds hr hc]
      exact Nat.zero_le _
  · rw [run_rows rnd range f x0 bounds hr]
    exact Nat.zero_le _

/-- C20: for a well-shaped input where `f` succeeds at the initial point `x0`
and at every sampled corner, and `SquaredMagnitude (f x0) <= TOL`,
`SimplexRoots` returns `x0` with no error and without invoking the step
function; and every call of `SimplexRoots`, whatever its input, invokes the
step function at most `MAX_ITERS` times. -/
theorem returns_initial_point_when_converged (rnd : Nat → Nat)
    (range : Nat → RangeOracle) (f : VectorValuedFunction) (x0 : Vec)
    (bounds : Matrix) (output : Vec) (lt : Table) (log : List Vec)
    (hr : bounds.rows = x0.length) (hc : bounds.cols = 2)
    (h0 : f x0 = .ok output)
    (hs : seedLoop rnd f bounds x0.length (List.range x0.length) 0 [] [x0]
      = (.ok lt, log))
    (hm : SquaredMagnitude output ≤ TOL) :
    SimplexRoots rnd range f x0 bounds = .ok x0
      ∧ (SimplexRootsRun rnd range f x0 bounds).steps = 0
      ∧ ∀ (rnd' : Nat → Nat) (range' : Nat → RangeOracle)
          (f' : VectorValuedFunction) (x0' : Vec) (bounds' : Matrix),
          (SimplexRootsRun rnd' range' f' x0' bounds').steps ≤ MAX_ITERS := by
  refine ⟨?_, ?_, fun rnd' range' f' x0' bounds' =>
    run_steps_le rnd' range' f' x0' bounds'⟩
  · rw [SimplexRoots_eq_result,
      run_seeded rnd range f x0 bounds hr hc output h0 lt log hs,
      driverLoop_done range f _ 0 _ x0 lt log (not_lt.mpr hm)]
  · rw [run_seeded rnd range f x0 bounds hr hc output h0 lt log hs,
      driverLoop_done range f _ 0 _ x0 lt log (not_lt.mpr hm)]

/-- Witness for C20: `test_1d` started at its root `2` with bounds
`[-3/2, 10]`. -/
theorem returns_initial_point_when_converged_witness :
    (NewDense 1 2 [-3 / 2, 10]).rows = ([2] : Vec).length
      ∧ (NewDense 1 2 [-3 / 2, 10]).cols = 2
      ∧ test_1d [2] = .ok [0]
      ∧ SquaredMagnitude [0] ≤ TOL
      ∧ SimplexRoots (fun _ => 0) (fun _ => inOrder) test_1d [2]
          (NewDense 1 2 [-3 / 2, 10]) = .ok [2]
      ∧ (SimplexRootsRun (fun _ => 0) (fun _ => inOrder) test_1d [2]
          (NewDense 1 2 [-3 / 2, 10])).steps = 0 :=
  ⟨rfl, rfl, by decide!, by decide!,
    (returns_initial_point_when_converged (fun _ => 0) (fun _ => inOrder)
      test_1d [2] (NewDense 1 2 [-3 / 2, 10]) [0]
      [(0, ⟨49 / 16, [-3 / 2]⟩), (1, ⟨9216, [10]⟩)] [[2], [-3 / 2], [10]]
      rfl rfl (by decide!) (by decide!) (by decide!)).1,
    (returns_initial_point_when_converged (fun _ => 0) (fun _ => inOrder)
      test_1d [2] (NewDense 1 2 [-3 / 2, 10]) [0]
      [(0, ⟨49 / 16, [-3 / 2]⟩), (1, ⟨9216, [10]⟩)] [[2], [-3 / 2], [10]]
      rfl rfl (by decide!) (by decide!) (by decide!)).2.1⟩

/-! ## The fallback against the spec's nearest-entry rule -/

theorem id2_SmallDim : SmallDim id2 := by
  intro x v h
  simp only [id2] at h
  cases h
  simp

theorem KeysOK_single_one : KeysOK [(1, ⟨32, [4, -4]⟩)] := by
  intro k hk
  simp only [keys, List.map_cons, List.map_nil, List.mem_singleton] at hk
  rw [hk]
  norm_num

theorem id2_step_facts :
    iterative_simplex_roots inOrder id2 [1, 1] [(1, ⟨32, [4, -4]⟩)]
        = .ok (2, [1, 1], [(1, ⟨32, [4, -4]⟩), (3, ⟨2, [1, 1]⟩)])
      ∧ id2 [1, 1] = .ok [1, 1]
      ∧ id2 [4, -4] = .ok [4, -4]
      ∧ sign_int [4, -4] = 1
      ∧ SquaredMagnitude [4, -4] = 32
      ∧ SquaredMagnitude [1, 1] ≥ TOL
      ∧ sign_int [1, 1] = 3
      ∧ opposite_sign_int [1, 1] = 0
      ∧ tlookup [(1, ⟨32, [4, -4]⟩), (3, ⟨2, [1, 1]⟩)] 0 = none
      ∧ specXorDistance 1 0 = 1
      ∧ specXorDistance 3 0 = 2
      ∧ midpoint [1, 1] [4, -4] = [5 / 2, -3 / 2] := by
  decide!

/-- C12 (failing input): `id2` at `x = (1, 1)` with a table holding the point
`(4, -4)` under its signature `1`.  After the insertion of `x` under `3` the
opposite signature `0` is absent; the entry nearest to `0` is the one under
`1` (XOR distance 1, against 2 for the entry under `3`, and also `1 ^ 0 <
3 ^ 0` as integers), which would give the next point `(5/2, -3/2)`; the step
instead uses the entry under `3`, the current point itself, and returns
`(1, 1)`, for every map iteration order. -/
theorem fallback_uses_current_not_nearest (range : RangeOracle) :
    iterative_simplex_roots range id2 [1, 1] [(1, ⟨32, [4, -4]⟩)]
        = .ok (2, [1, 1], [(1, ⟨32, [4, -4]⟩), (3, ⟨2, [1, 1]⟩)])
      ∧ SquaredMagnitude [1, 1] ≥ TOL
      ∧ opposite_sign_int [1, 1] = 0
      ∧ tlookup [(1, ⟨32, [4, -4]⟩), (3, ⟨2, [1, 1]⟩)] 0 = none
      ∧ specXorDistance 1 0 < specXorDistance 3 0
      ∧ 1 ^^^ 0 < 3 ^^^ 0
      ∧ midpoint [1, 1] [4, -4] = [5 / 2, -3 / 2]
      ∧ ([5 / 2, -3 / 2] : Vec) ≠ [1, 1] := by
  obtain ⟨h1, _, _, _, _, h6, _, h8, h9, h10, h11, h12⟩ := id2_step_facts
  rw [step_range_irrelevant range inOrder id2 [1, 1] _ id2_SmallDim
    KeysOK_single_one]
  refine ⟨h1, h6, h8, h9, by rw [h10, h11]; norm_num, by decide, h12, by decide!⟩

/-! ## Seeding -/

theorem getD_set (l : Vec) (j j' : Nat) (a : ℚ) :
    (l.set j a).getD j' 0
      = if j = j' ∧ j < l.length then a else l.getD j' 0 := by
  simp only [List.getD_eq_getElem?_getD, List.getElem?_set]
  by_cases h : j = j'
  · subst h
    by_cases h2 : j < l.length
    · simp [h2]
    · simp [h2, List.getElem?_eq_none (not_lt.mp h2)]
  · simp [h]

theorem Col_length (c : Nat) (bounds : Matrix) :
    (Col c bounds).length = bounds.rows := by
  simp [Col]

theorem Col_getD (c : Nat) (bounds : Matrix) (j : Nat) (hj : j < bounds.rows) :
    (Col c bounds).getD j 0 = bounds.At j c := by
  simp [Col, List.getD_eq_getElem?_getD, List.getElem?_map,
    List.getElem?_range hj]

theorem mod_two_cases (r : Nat) : r % 2 = 0 ∨ r % 2 = 1 := by
  omega

/-- One pass of the inner loop keeps `CornerInv`. -/
theorem CornerInv_step (rnd : Nat → Nat) (bounds : Matrix) (i j : Nat)
    (st : Vec × Vec × Nat) (h : CornerInv bounds i st.1 st.2.1) :
    CornerInv bounds i
      (if i = j then st
        else (st.1.set j (bounds.At j (rnd st.2.2 % 2)),
              st.2.1.set j (bounds.At j (rnd (st.2.2 + 1) % 2)),
              st.2.2 + 2)).1
      (if i = j then st
        else (st.1.set j (bounds.At j (rnd st.2.2 % 2)),
              st.2.1.set j (bounds.At j (rnd (st.2.2 + 1) % 2)),
              st.2.2 + 2)).2.1 := by
  by_cases hij : i = j
  · simp only [hij, if_true]
    rw [← hij]
    exact h
  · simp only [hij, if_false]
    obtain ⟨h1, h2, h3, h4⟩ := h
    have hji : ¬ (j = i ∧ j < st.1.length) := fun hc => hij hc.1.symm
    have hji' : ¬ (j = i ∧ j < st.2.1.length) := fun hc => hij hc.1.symm
    refine ⟨by simp [h1], by simp [h2], ?_, ?_⟩
    · intro hi
      rw [getD_set, getD_set, if_neg hji, if_neg hji']
      exact h3 hi
    · intro j' hj'
      rw [getD_set, getD_set]
      constructor
      · by_cases hc : j = j' ∧ j < st.1.length
        · rw [if_pos hc, ← hc.1]
          rcases mod_two_cases (rnd st.2.2) with h0 | h0 <;> rw [h0]
          · exact Or.inl rfl
          · exact Or.inr rfl
        · rw [if_neg hc]
          exact (h4 j' hj').1
      · by_cases hc : j = j' ∧ j < st.2.1.length
        · rw [if_pos hc, ← hc.1]
          rcases mod_two_cases (rnd (st.2.2 + 1)) with h0 | h0 <;> rw [h0]
          · exact Or.inl rfl
          · exact Or.inr rfl
        · rw [if_neg hc]
          exact (h4 j' hj').2

theorem CornerInv_fold (rnd : Nat → Nat) (bounds : Matrix) (i : Nat) :
    ∀ (js : List Nat) (st : Vec × Vec × Nat), CornerInv bounds i st.1 st.2.1 →
      CornerInv bounds i
        (js.foldl
          (fun st j =>
            if i = j then st
            else (st.1.set j (bounds.At j (rnd st.2.2 % 2)),
                  st.2.1.set j (bounds.At j (rnd (st.2.2 + 1) % 2)),
                  st.2.2 + 2))
          st).1
        (js.foldl
          (fun st j =>
            if i = j then st
            else (st.1.set j (bounds.At j (rnd st.2.2 % 2)),
                  st.2.1.set j (bounds.At j (rnd (st.2.2 + 1) % 2)),
                  st.2.2 + 2))
          st).2.1 := by
  intro js
  induction js with
  | nil => intro st h; exact h
  | cons j js ih =>
    intro st h
    rw [List.foldl_cons]
    exact ih _ (CornerInv_step rnd bounds i j st h)

/-- Both corners built for dimension `i` satisfy `CornerInv`. -/
theorem cornerPair_inv (rnd : Nat → Nat) (bounds : Matrix) (length i k : Nat) :
    CornerInv bounds i (cornerPair rnd bounds length i k).1
      (cornerPair rnd bounds length i k).2.1 := by
  unfold cornerPair
  apply CornerInv_fold
  refine ⟨Col_length 0 bounds, Col_length 1 bounds, ?_, ?_⟩
  · intro hi
    exact ⟨Col_getD 0 bounds i hi, Col_getD 1 bounds i hi⟩
  · intro j hj
    exact ⟨Or.inl (Col_getD 0 bounds j hj), Or.inr (Col_getD 1 bounds j hj)⟩

theorem seedLoop_total (rnd : Nat → Nat) (f : VectorValuedFunction)
    (g : Vec → Vec) (hf : ∀ x, f x = .ok (g x)) (bounds : Matrix)
    (length : Nat) :
    ∀ (is : List Nat) (k : Nat) (lt : Table) (log : List Vec),
      seedLoop rnd f bounds length is k lt log
        = (.ok ((seedCorners rnd bounds length is k).foldl (insertEval g) lt),
            log ++ seedCorners rnd bounds length is k) := by
  intro is
  induction is with
  | nil =>
    intro k lt log
    simp [seedLoop, seedCorners]
  | cons i is ih =>
    intro k lt log
    simp only [seedLoop, hf, ih, seedCorners, List.foldl_cons, insertEval,
      List.append_assoc, List.cons_append, List.nil_append]

theorem seedCorners_length (rnd : Nat → Nat) (bounds : Matrix) (length : Nat) :
    ∀ (is : List Nat) (k : Nat),
      (seedCorners rnd bounds length is k).length = 2 * is.length := by
  intro is
  induction is with
  | nil => intro k; rfl
  | cons i is ih =>
    intro k
    simp only [seedCorners, List.length_cons, ih]
    omega

/-- The corners at positions `2 * idx` and `2 * idx + 1` are the pair built
for the index at position `idx`. -/
theorem seedCorners_pair (rnd : Nat → Nat) (bounds : Matrix) (length : Nat) :
    ∀ (is : List Nat) (k idx i : Nat), is[idx]? = some i →
      ∃ k', (seedCorners rnd bounds length is k)[2 * idx]?
            = some (cornerPair rnd bounds length i k').1
        ∧ (seedCorners rnd bounds length is k)[2 * idx + 1]?
            = some (cornerPair rnd bounds length i k').2.1 := by
  intro is
  induction is with
  | nil =>
    intro k idx i h
    simp at h
  | cons i0 is ih =>
    intro k idx i h
    cases idx with
    | zero =>
      simp only [List.getElem?_cons_zero, Option.some.injEq] at h
      subst h
      exact ⟨k, by simp [seedCorners], by simp [seedCorners]⟩
    | succ idx =>
      simp only [List.getElem?_cons_succ] at h
      obtain ⟨k', h1, h2⟩ := ih (cornerPair rnd bounds length i0 k).2.2 idx i h
      refine ⟨k', ?_, ?_⟩
      · have : 2 * (idx + 1) = 2 * idx + 1 + 1 := by omega
        rw [this]
        simp only [seedCorners, List.getElem?_cons_succ]
        exact h1
      · have : 2 * (idx + 1) + 1 = 2 * idx + 1 + 1 + 1 := by omega
        rw [this]
        simp only [seedCorners, List.getElem?_cons_succ]
        exact h2

theorem insertEval_ne_nil (g : Vec → Vec) (lt : Table) (c : Vec) :
    insertEval g lt c ≠ [] := by
  intro h
  have hmem := (mem_keys_insert lt c (sign_int (g c)) (SquaredMagnitude (g c))
    (sign_int (g c))).mpr (Or.inl rfl)
  unfold insertEval at h
  rw [h] at hmem
  cases hmem

theorem foldl_insertEval_ne_nil (g : Vec → Vec) :
    ∀ (cs : List Vec) (lt : Table), cs ≠ [] →
      cs.foldl (insertEval g) lt ≠ [] := by
  intro cs
  induction cs with
  | nil => intro lt h; exact absurd rfl h
  | cons c cs ih =>
    intro lt _
    rw [List.foldl_cons]
    cases cs with
    | nil => exact insertEval_ne_nil g lt c
    | cons c' cs' => exact ih _ (List.cons_ne_nil _ _)

theorem driverLoop_evals_prefix (range : Nat → RangeOracle)
    (f : VectorValuedFunction) :
    ∀ (left iters : Nat) (mag : ℚ) (x : Vec) (lt : Table) (log : List Vec),
      ∃ rest, (driverLoop range f left iters mag x lt log).evals
        = log ++ rest := by
  intro left
  induction left with
  | zero =>
    intro iters mag x lt log
    exact ⟨[], by simp [driverLoop]⟩
  | succ left ih =>
    intro iters mag x lt log
    by_cases hm : mag > TOL
    · cases hstep : iterative_simplex_roots (range iters) f x lt with
      | error e =>
        rw [driverLoop_step_error range f left iters mag x lt log hm e hstep]
        exact ⟨[x], rfl⟩
      | ok r =>
        rw [driverLoop_step_ok range f left iters mag x lt log hm r hstep]
        obtain ⟨rest, hrest⟩ := ih (iters + 1) r.1 r.2.1 r.2.2 (log ++ [x])
        exact ⟨x :: rest, by rw [hrest]; simp⟩
    · rw [driverLoop_done range f _ iters mag x lt log hm]
      exact ⟨[], by simp⟩

/-- C15: for well-shaped bounds of dimension `n` and a function that never
fails (`f x = ok (g x)`), whatever the random draws, the seeding evaluates `f`
at exactly `2 n` corners after the initial point; the corners `2 i` and
`2 i + 1` have `n` coordinates, coordinate `i` equal to `bounds[i].lower`,
resp. `bounds[i].upper`, and every coordinate `j` equal to `bounds[j].lower`
or `bounds[j].upper`; the seeded table is obtained by inserting each corner,
in order, under `sign_int` of its image with its squared magnitude, and it is
non-empty when `n >= 1`; the driver loop then starts from that table. -/
theorem seeding_evaluates_2n_corners (rnd : Nat → Nat)
    (range : Nat → RangeOracle) (f : VectorValuedFunction) (g : Vec → Vec)
    (x0 : Vec) (bounds : Matrix) (hr : bounds.rows = x0.length)
    (hc : bounds.cols = 2) (hf : ∀ x, f x = .ok (g x)) :
    ∃ corners : List Vec,
      corners.length = 2 * x0.length
        ∧ seedLoop rnd f bounds x0.length (List.range x0.length) 0 [] [x0]
            = (.ok (corners.foldl
                (fun lt c => insert_into_lookup_table lt c (sign_int (g c))
                  (SquaredMagnitude (g c))) []),
                x0 :: corners)
        ∧ (∀ i, i < x0.length →
            ∃ lo up, corners[2 * i]? = some lo ∧ corners[2 * i + 1]? = some up
              ∧ lo.length = x0.length ∧ up.length = x0.length
              ∧ lo.getD i 0 = bounds.At i 0 ∧ up.getD i 0 = bounds.At i 1
              ∧ ∀ j, j < x0.length →
                  (lo.getD j 0 = bounds.At j 0 ∨ lo.getD j 0 = bounds.At j 1)
                    ∧ (up.getD j 0 = bounds.At j 0
                        ∨ up.getD j 0 = bounds.At j 1))
        ∧ (1 ≤ x0.length →
            corners.foldl
              (fun lt c => insert_into_lookup_table lt c (sign_int (g c))
                (SquaredMagnitude (g c))) [] ≠ [])
        ∧ ∃ rest, (SimplexRootsRun rnd range f x0 bounds).evals
            = x0 :: corners ++ rest := by
  have hseed := seedLoop_total rnd f g hf bounds x0.length
    (List.range x0.length) 0 [] [x0]
  have hlen := seedCorners_length rnd bounds x0.length (List.range x0.length) 0
  rw [List.length_range] at hlen
  refine ⟨seedCorners rnd bounds x0.length (List.range x0.length) 0, hlen,
    hseed, ?_, ?_, ?_⟩
  · intro i hi
    obtain ⟨k', h1, h2⟩ := seedCorners_pair rnd bounds x0.length
      (List.range x0.length) 0 i i (List.getElem?_range hi)
    obtain ⟨c1, c2, c3, c4⟩ := cornerPair_inv rnd bounds x0.length i k'
    rw [hr] at c1 c2 c3 c4
    exact ⟨_, _, h1, h2, c1, c2, (c3 hi).1, (c3 hi).2, c4⟩
  · intro hn
    apply foldl_insertEval_ne_nil g
    intro hnil
    rw [hnil, List.length_nil] at hlen
    omega
  · rw [run_seeded rnd range f x0 bounds hr hc (g x0) (hf x0) _ _ hseed]
    obtain ⟨rest, hrest⟩ := driverLoop_evals_prefix range f MAX_ITERS 0
      (SquaredMagnitude (g x0)) x0 _
      ([x0] ++ seedCorners rnd bounds x0.length (List.range x0.length) 0)
    exact ⟨rest, by rw [hrest]; simp⟩

/-- Witness for C15: `test_2d_independent` on the bounds of the test, under
the draws `0, 1, 0, 0`: the four corners are `(-1, -7/2)`, `(10, 7/2)`,
`(-1, -7/2)`, `(-1, 7/2)`. -/
theorem seeding_evaluates_2n_corners_witness :
    (NewDense 2 2 [-1, 10, -7 / 2, 7 / 2]).rows = ([1, 1] : Vec).length
      ∧ (NewDense 2 2 [-1, 10, -7 / 2, 7 / 2]).cols = 2
      ∧ seedLoop draws0100 test_2d_independent
          (NewDense 2 2 [-1, 10, -7 / 2, 7 / 2]) 2 (List.range 2) 0 [] [[1, 1]]
          = (.ok seededIndep,
              [[1, 1], [-1, -7 / 2], [10, 7 / 2], [-1, -7 / 2], [-1, 7 / 2]])
      ∧ ∃ corners : List Vec, corners.length = 2 * ([1, 1] : Vec).length
          ∧ ∃ rest, (SimplexRootsRun draws0100 (fun _ => inOrder)
              test_2d_independent [1, 1]
              (NewDense 2 2 [-1, 10, -7 / 2, 7 / 2])).evals
              = [1, 1] :: corners ++ rest :=
  ⟨rfl, rfl, indep_facts.2.1,
    (seeding_evaluates_2n_corners draws0100 (fun _ => inOrder)
      test_2d_independent
      (fun x => [x.getD 0 0 * x.getD 0 0 - x.getD 0 0 - 6,
        x.getD 1 0 ^ 3 - 2 * x.getD 1 0 ^ 2 - 19 * x.getD 1 0 + 20])
      [1, 1] (NewDense 2 2 [-1, 10, -7 / 2, 7 / 2]) rfl rfl
      (fun _ => rfl)).imp (fun _ h => ⟨h.1, h.2.2.2.2⟩)⟩

/-! ## Iterates stay in the box -/

theorem mem_tstore (lt : Table) (k : Nat) (v : FunctionCall)
    (e : Nat × FunctionCall) (h : e ∈ tstore lt k v) : e ∈ lt ∨ e = (k, v) := by
  induction lt with
  | nil =>
    simp only [tstore, List.mem_singleton] at h
    exact Or.inr h
  | cons a rest ih =>
    obtain ⟨a1, a2⟩ := a
    by_cases hk : a1 = k
    · simp only [tstore, hk, if_true, List.mem_cons] at h
      rcases h with h | h
      · exact Or.inr h
      · exact Or.inl (List.mem_cons_of_mem _ h)
    · simp only [tstore, hk, if_false, List.mem_cons] at h
      rcases h with h | h
      · exact Or.inl (by rw [h]; exact List.mem_cons_self _ _)
      · rcases ih h with h' | h'
        · exact Or.inl (List.mem_cons_of_mem _ h')
        · exact Or.inr h'

theorem mem_insert (lt : Table) (p : Vec) (s : Nat) (m : ℚ)
    (e : Nat × FunctionCall) (h : e ∈ insert_into_lookup_table lt p s m) :
    e ∈ lt ∨ e = (s, ⟨m, p⟩) := by
  unfold insert_into_lookup_table at h
  cases hl : tlookup lt s with
  | none =>
    rw [hl] at h
    exact mem_tstore lt s _ e h
  | some el =>
    rw [hl] at h
    by_cases hm : el.mag ≥ m
    · simp only [hm, if_true] at h
      exact mem_tstore lt s _ e h
    · simp only [hm, if_false] at h
      exact Or.inl h

theorem tlookup_mem (lt : Table) (k : Nat) (v : FunctionCall)
    (h : tlookup lt k = some v) : (k, v) ∈ lt := by
  induction lt with
  | nil => simp [tlookup] at h
  | cons a rest ih =>
    obtain ⟨a1, a2⟩ := a
    by_cases hk : a1 = k
    · simp only [tlookup, hk, if_true, Option.some.injEq] at h
      rw [hk, h]
      exact List.mem_cons_self _ _
    · simp only [tlookup, hk, if_false] at h
      exact List.mem_cons_of_mem _ (ih h)

theorem TableInBox_insert (bounds : Matrix) (lt : Table) (p : Vec) (s : Nat)
    (m : ℚ) (hlt : TableInBox bounds lt) (hp : InBox bounds p) :
    TableInBox bounds (insert_into_lookup_table lt p s m) := by
  intro e he
  rcases mem_insert lt p s m e he with h | h
  · exact hlt e h
  · rw [h]
    exact hp

theorem TableInBox_nil (bounds : Matrix) : TableInBox bounds [] := by
  intro e he
  cases he

theorem InBox_of_AtBound (bounds : Matrix)
    (hb : ∀ i, i < bounds.rows → bounds.At i 0 ≤ bounds.At i 1) (p : Vec)
    (hlen : p.length = bounds.rows)
    (hp : ∀ j, j < bounds.rows → AtBound bounds j (p.getD j 0)) :
    InBox bounds p := by
  refine ⟨hlen, ?_⟩
  intro i hi
  rcases hp i hi with h | h
  · rw [h]
    exact ⟨le_refl _, hb i hi⟩
  · rw [h]
    exact ⟨hb i hi, le_refl _⟩

theorem cornerPair_InBox (rnd : Nat → Nat) (bounds : Matrix)
    (hb : ∀ i, i < bounds.rows → bounds.At i 0 ≤ bounds.At i 1)
    (length i k : Nat) :
    InBox bounds (cornerPair rnd bounds length i k).1
      ∧ InBox bounds (cornerPair rnd bounds length i k).2.1 := by
  obtain ⟨c1, c2, _, c4⟩ := cornerPair_inv rnd bounds length i k
  exact ⟨InBox_of_AtBound bounds hb _ c1 (fun j hj => (c4 j hj).1),
    InBox_of_AtBound bounds hb _ c2 (fun j hj => (c4 j hj).2)⟩

theorem InBox_midpoint (bounds : Matrix) (x p : Vec) (hx : InBox bounds x)
    (hp : InBox bounds p) : InBox bounds (midpoint x p) := by
  obtain ⟨hx1, hx2⟩ := hx
  obtain ⟨hp1, hp2⟩ := hp
  refine ⟨by rw [midpoint_length, hx1, hp1, Nat.min_self], ?_⟩
  intro i hi
  rw [midpoint_getD x p i (by omega) (by omega)]
  obtain ⟨a1, a2⟩ := hx2 i hi
  obtain ⟨b1, b2⟩ := hp2 i hi
  constructor
  · linarith
  · linarith

/-- What a successful step returns: the table with `x` inserted, and either
`x` or the midpoint of `x` and a point of that table. -/
theorem step_ok_cases (range : RangeOracle) (f : VectorValuedFunction)
    (x : Vec) (lt : Table) (r : ℚ × Vec × Table)
    (h : iterative_simplex_roots range f x lt = .ok r) :
    ∃ v, f x = .ok v
      ∧ r.2.2 = insert_into_lookup_table lt x (sign_int v) (SquaredMagnitude v)
      ∧ (r.2.1 = x
          ∨ ∃ k opp, tlookup r.2.2 k = some opp
              ∧ r.2.1 = midpoint x opp.vec) := by
  unfold iterative_simplex_roots at h
  cases hf : f x with
  | error e => rw [hf] at h; cases h
  | ok v =>
    refine ⟨v, rfl, ?_⟩
    rw [hf] at h
    simp only at h
    split at h
    · cases h
      exact ⟨rfl, Or.inl rfl⟩
    · split at h
      · rename_i opp hopp
        cases h
        exact ⟨rfl, Or.inr ⟨_, opp, hopp, rfl⟩⟩
      · split at h
        · rename_i opp hopp
          cases h
          exact ⟨rfl, Or.inr ⟨_, opp, hopp, rfl⟩⟩
        · cases h

theorem step_InBox (bounds : Matrix) (range : RangeOracle)
    (f : VectorValuedFunction) (x : Vec) (lt : Table) (r : ℚ × Vec × Table)
    (hx : InBox bounds x) (hlt : TableInBox bounds lt)
    (h : iterative_simplex_roots range f x lt = .ok r) :
    InBox bounds r.2.1 ∧ TableInBox bounds r.2.2 := by
  obtain ⟨v, _, htab, hnext⟩ := step_ok_cases range f x lt r h
  have ht : TableInBox bounds r.2.2 := by
    rw [htab]
    exact TableInBox_insert bounds lt x _ _ hlt hx
  refine ⟨?_, ht⟩
  rcases hnext with h1 | ⟨k, opp, hopp, h1⟩
  · rw [h1]
    exact hx
  · rw [h1]
    exact InBox_midpoint bounds x opp.vec hx (ht (k, opp) (tlookup_mem _ k opp hopp))

theorem seedLoop_InBox (rnd : Nat → Nat) (f : VectorValuedFunction)
    (bounds : Matrix)
    (hb : ∀ i, i < bounds.rows → bounds.At i 0 ≤ bounds.At i 1)
    (length : Nat) :
    ∀ (is : List Nat) (k : Nat) (lt : Table) (log : List Vec),
      TableInBox bounds lt → (∀ p ∈ log, InBox bounds p) →
      (∀ lt', (seedLoop rnd f bounds length is k lt log).1 = .ok lt' →
          TableInBox bounds lt')
        ∧ ∀ p ∈ (seedLoop rnd f bounds length is k lt log).2,
            InBox bounds p := by
  intro is
  induction is with
  | nil =>
    intro k lt log hlt hlog
    refine ⟨?_, hlog⟩
    intro lt' h
    simp only [seedLoop] at h
    cases h
    exact hlt
  | cons i is ih =>
    intro k lt log hlt hlog
    obtain ⟨hlo, hup⟩ := cornerPair_InBox rnd bounds hb length i k
    have hlog1 : ∀ p ∈ log ++ [(cornerPair rnd bounds length i k).1],
        InBox bounds p := by
      intro p hp
      rcases List.mem_append.mp hp with h | h
      · exact hlog p h
      · simp only [List.mem_singleton] at h
        rw [h]
        exact hlo
    have hlog2 : ∀ p ∈ log ++ [(cornerPair rnd bounds length i k).1,
        (cornerPair rnd bounds length i k).2.1], InBox bounds p := by
      intro p hp
      rcases List.mem_append.mp hp with h | h
      · exact hlog p h
      · simp only [List.mem_cons, List.mem_singleton, List.not_mem_nil,
          or_false] at h
        rcases h with h | h
        · rw [h]; exact hlo
        · rw [h]; exact hup
    cases h1 : f (cornerPair rnd bounds length i k).1 with
    | error e =>
      simp only [seedLoop, h1]
      exact ⟨fun lt' h => (by cases h), hlog1⟩
    | ok lower_res =>
      cases h2 : f (cornerPair rnd bounds length i k).2.1 with
      | error e =>
        simp only [seedLoop, h1, h2]
        exact ⟨fun lt' h => (by cases h), hlog2⟩
      | ok upper_res =>
        simp only [seedLoop, h1, h2]
        exact ih _ _ _
          (TableInBox_insert bounds _ _ _ _
            (TableInBox_insert bounds lt _ _ _ hlt hlo) hup) hlog2

theorem driverLoop_InBox (bounds : Matrix) (range : Nat → RangeOracle)
    (f : VectorValuedFunction) :
    ∀ (left iters : Nat) (mag : ℚ) (x : Vec) (lt : Table) (log : List Vec),
      InBox bounds x → TableInBox bounds lt → (∀ p ∈ log, InBox bounds p) →
      (∀ p ∈ (driverLoop range f left iters mag x lt log).evals,
          InBox bounds p)
        ∧ ∀ xs, (driverLoop range f left iters mag x lt log).result = .ok xs →
            InBox bounds xs := by
  intro left
  induction left with
  | zero =>
    intro iters mag x lt log hx _ hlog
    rw [driverLoop_zero]
    refine ⟨hlog, ?_⟩
    intro xs h
    rw [(finish_ok mag x xs h).1]
    exact hx
  | succ left ih =>
    intro iters mag x lt log hx hlt hlog
    have hlog1 : ∀ p ∈ log ++ [x], InBox bounds p := by
      intro p hp
      rcases List.mem_append.mp hp with h | h
      · exact hlog p h
      · simp only [List.mem_singleton] at h
        rw [h]
        exact hx
    by_cases hm : mag > TOL
    · cases hstep : iterative_simplex_roots (range iters) f x lt with
      | error e =>
        rw [driverLoop_step_error range f left iters mag x lt log hm e hstep]
        exact ⟨hlog1, fun xs h => (by cases h)⟩
      | ok r =>
        rw [driverLoop_step_ok range f left iters mag x lt log hm r hstep]
        obtain ⟨h1, h2⟩ := step_InBox bounds (range iters) f x lt r hx hlt hstep
        exact ih _ _ _ _ _ h1 h2 hlog1
    · rw [driverLoop_done range f _ iters mag x lt log hm]
      refine ⟨hlog, ?_⟩
      intro xs h
      cases h
      exact hx

/-- C19: if `bounds[i].lower <= bounds[i].upper` for every `i` and the initial
point lies in the box, then every point at which the run evaluates `f` (the
initial point, the corners, the iterates) lies in the box, every point of the
seeded table does, a step from a point and a table in the box returns a next
point and a table in the box, and any vector `SimplexRoots` returns lies in
the box. -/
theorem iterates_stay_in_box (rnd : Nat → Nat) (range : Nat → RangeOracle)
    (f : VectorValuedFunction) (x0 : Vec) (bounds : Matrix)
    (hb : ∀ i, i < bounds.rows → bounds.At i 0 ≤ bounds.At i 1)
    (hx0 : InBox bounds x0) :
    (∀ p ∈ (SimplexRootsRun rnd range f x0 bounds).evals, InBox bounds p)
      ∧ (∀ xs, SimplexRoots rnd range f x0 bounds = .ok xs → InBox bounds xs)
      ∧ (∀ lt log,
          seedLoop rnd f bounds x0.length (List.range x0.length) 0 [] [x0]
            = (.ok lt, log) → TableInBox bounds lt)
      ∧ ∀ (r : RangeOracle) (x : Vec) (lt : Table) (res : ℚ × Vec × Table),
          InBox bounds x → TableInBox bounds lt →
          iterative_simplex_roots r f x lt = .ok res →
          InBox bounds res.2.1 ∧ TableInBox bounds res.2.2 := by
  have hlog0 : ∀ p ∈ [x0], InBox bounds p := by
    intro p hp
    simp only [List.mem_singleton] at hp
    rw [hp]
    exact hx0
  have hseed := seedLoop_InBox rnd f bounds hb x0.length (List.range x0.length)
    0 [] [x0] (TableInBox_nil bounds) hlog0
  have hstepbox : ∀ (r : RangeOracle) (x : Vec) (lt : Table)
      (res : ℚ × Vec × Table), InBox bounds x → TableInBox bounds lt →
      iterative_simplex_roots r f x lt = .ok res →
      InBox bounds res.2.1 ∧ TableInBox bounds res.2.2 :=
    fun r x lt res hx hlt h => step_InBox bounds r f x lt res hx hlt h
  have hseedtab : ∀ lt log,
      seedLoop rnd f bounds x0.length (List.range x0.length) 0 [] [x0]
        = (.ok lt, log) → TableInBox bounds lt := by
    intro lt log h
    exact hseed.1 lt (by rw [h])
  have hr : bounds.rows = x0.length := hx0.1.symm
  have hrun : (∀ p ∈ (SimplexRootsRun rnd range f x0 bounds).evals,
        InBox bounds p)
      ∧ ∀ xs, (SimplexRootsRun rnd range f x0 bounds).result = .ok xs →
          InBox bounds xs := by
    by_cases hc : bounds.cols = 2
    · cases h0 : f x0 with
      | error e =>
        rw [run_eval_error rnd range f x0 bounds hr hc e h0]
        exact ⟨hlog0, fun xs h => (by cases h)⟩
      | ok output =>
        rcases hs : seedLoop rnd f bounds x0.length (List.range x0.length) 0
            [] [x0] with ⟨res, log⟩
        rw [hs] at hseed
        cases res with
        | error e =>
          rw [run_seed_error rnd range f x0 bounds hr hc output h0 e log hs]
          exact ⟨hseed.2, fun xs h => (by cases h)⟩
        | ok lt =>
          rw [run_seeded rnd range f x0 bounds hr hc output h0 lt log hs]
          exact driverLoop_InBox bounds range f MAX_ITERS 0
            (SquaredMagnitude output) x0 lt log hx0 (hseed.1 lt rfl) hseed.2
    · rw [run_cols rnd range f x0 bounds hr hc]
      exact ⟨fun p hp => (by cases hp), fun xs h => (by cases h)⟩
  exact ⟨hrun.1, fun xs h => hrun.2 xs (by rw [← SimplexRoots_eq_result]; exact h),
    hseedtab, hstepbox⟩

theorem bounds_1d_ordered :
    ∀ i, i < (NewDense 1 2 [-3 / 2, 10]).rows →
      (NewDense 1 2 [-3 / 2, 10]).At i 0 ≤ (NewDense 1 2 [-3 / 2, 10]).At i 1 := by
  intro i hi
  have h0 : i = 0 := by
    simp only [NewDense] at hi
    omega
  subst h0
  simp only [NewDense]
  norm_num

theorem bounds_1d_initial : InBox (NewDense 1 2 [-3 / 2, 10]) [1] := by
  refine ⟨rfl, ?_⟩
  intro i hi
  have h0 : i = 0 := by
    simp only [NewDense] at hi
    omega
  subst h0
  simp only [NewDense]
  norm_num

/-- Witness for C19: the run of C5 with bounds `[-3/2, 10]`; the returned
point `2` lies in the box. -/
theorem iterates_stay_in_box_witness :
    (∀ i, i < (NewDense 1 2 [-3 / 2, 10]).rows →
        (NewDense 1 2 [-3 / 2, 10]).At i 0 ≤ (NewDense 1 2 [-3 / 2, 10]).At i 1)
      ∧ InBox (NewDense 1 2 [-3 / 2, 10]) [1]
      ∧ InBox (NewDense 1 2 [-3 / 2, 10]) [2] :=
  ⟨bounds_1d_ordered, bounds_1d_initial,
    (iterates_stay_in_box (fun _ => 0) (fun _ => inOrder) test_1d [1]
      (NewDense 1 2 [-3 / 2, 10]) bounds_1d_ordered bounds_1d_initial).2.1 [2]
      test_1d_upper_run⟩

/-! ## The tolerance as Go compares it -/

/-- `TOL64` is a `float64` (a 53-bit integer times `2^-106`) and lies within
half a unit in the last place of `1e-16`: it is the `float64` nearest to the
constant. -/
theorem TOL64_nearest :
    TOL64 = 8112963841460668 / 2 ^ 106
      ∧ (2 : ℚ) ^ 52 ≤ 8112963841460668 ∧ (8112963841460668 : ℚ) < 2 ^ 53
      ∧ |TOL64 - 1 / 10 ^ 16| < 1 / 2 ^ 107 := by
  unfold TOL64
  refine ⟨by norm_num, by norm_num, by norm_num, ?_⟩
  rw [abs_lt]
  constructor <;> norm_num

theorem iterative_simplex_roots_at_TOL (range : RangeOracle)
    (f : VectorValuedFunction) (x : Vec) (lt : Table) :
    iterative_simplex_roots_at TOL range f x lt
      = iterative_simplex_roots range f x lt := rfl

theorem driverLoop_at_TOL (range : Nat → RangeOracle)
    (f : VectorValuedFunction) :
    ∀ (left iters : Nat) (mag : ℚ) (x : Vec) (lt : Table) (log : List Vec),
      driverLoop_at TOL range f left iters mag x lt log
        = driverLoop range f left iters mag x lt log := by
  intro left
  induction left with
  | zero => intro iters mag x lt log; rfl
  | succ left ih =>
    intro iters mag x lt log
    simp only [driverLoop_at, driverLoop, iterative_simplex_roots_at_TOL, ih]
    rfl

/-- At the tolerance `TOL` the parametrised run is the run. -/
theorem SimplexRootsRun_at_TOL (rnd : Nat → Nat) (range : Nat → RangeOracle)
    (f : VectorValuedFunction) (x0 : Vec) (bounds : Matrix) :
    SimplexRootsRun_at TOL rnd range f x0 bounds
      = SimplexRootsRun rnd range f x0 bounds := by
  simp only [SimplexRootsRun_at, SimplexRootsRun, driverLoop_at_TOL]

/-- C1 (failing input): `boundary4`, initial point `(1, 1, 1, 1)`, bounds
`0 <= x[i] <= 4`, every `rand.Intn(2)` equal to `1`, tolerance `TOL64`.  The
first step moves to `(5/2, 5/2, 5/2, 5/2)`; there the squared magnitude is
exactly `TOL64`, so the step does not take its `< TOL` exit and returns the
midpoint `(7/4, 7/4, 7/4, 7/4)`; the driver stops because the magnitude is not
`> TOL` and `SimplexRoots` returns that midpoint, a point at which `f` was
never evaluated and whose image has squared magnitude `25/4 > TOL64`. -/
theorem SimplexRoots_returns_unevaluated_midpoint :
    SimplexRoots_at TOL64 (fun _ => 1) (fun _ => inOrder) boundary4
        [1, 1, 1, 1] box4 = .ok [7 / 4, 7 / 4, 7 / 4, 7 / 4]
      ∧ (SimplexRootsRun_at TOL64 (fun _ => 1) (fun _ => inOrder) boundary4
          [1, 1, 1, 1] box4).evals
          = [[1, 1, 1, 1], [0, 4, 4, 4], [4, 4, 4, 4], [4, 0, 4, 4],
              [4, 4, 4, 4], [4, 4, 0, 4], [4, 4, 4, 4], [4, 4, 4, 0],
              [4, 4, 4, 4], [1, 1, 1, 1], [5 / 2, 5 / 2, 5 / 2, 5 / 2]]
      ∧ (SimplexRootsRun_at TOL64 (fun _ => 1) (fun _ => inOrder) boundary4
          [1, 1, 1, 1] box4).steps = 2
      ∧ SquaredMagnitude
          [45035995 / 2 ^ 52, 10709 / 2 ^ 52, 206 / 2 ^ 52, 5 / 2 ^ 52] = TOL64
      ∧ boundary4 [7 / 4, 7 / 4, 7 / 4, 7 / 4]
          = .ok [-5 / 4, -5 / 4, -5 / 4, -5 / 4]
      ∧ SquaredMagnitude [-5 / 4, -5 / 4, -5 / 4, -5 / 4] = 25 / 4
      ∧ (25 / 4 : ℚ) > TOL64 := by
  decide!

/-! ## C16 and C17 at their stated scope -/

/-- C17 (counterexample): `test_1d` at `x = 1` (dimension 1) with a table that
holds an entry under the key `-1`.  The output `-3` has signature `0` and
opposite signature `1`, absent from the table after the insertion of `x`; yet
in both enumeration orders of the two keys the scan ends with
`min_idx = -1`, not `0`, and the step returns the midpoint `3` of `x` and the
point stored under `-1`. -/
theorem fallback_ends_on_negative_key :
    test_1d [1] = .ok [-3]
      ∧ ([-3] : Vec).length < 63
      ∧ SquaredMagnitude [-3] ≥ TOL
      ∧ sign_int [-3] = 0
      ∧ opposite_sign_int [-3] = 1
      ∧ insert_into_lookup_table negKeyTable [1] (sign_int [-3])
          (SquaredMagnitude [-3]) = [(minusOne, ⟨1, [5]⟩), (0, ⟨9, [1]⟩)]
      ∧ tlookup [(minusOne, ⟨1, [5]⟩), (0, ⟨9, [1]⟩)] (opposite_sign_int [-3])
          = none
      ∧ fallbackScan (sign_int [-3])
          (inOrder.1 [(minusOne, ⟨1, [5]⟩), (0, ⟨9, [1]⟩)])
          (minusOne, opposite_sign_int [-3]) = (minusOne, minusOne)
      ∧ fallbackScan (sign_int [-3])
          (reverseOrder.1 [(minusOne, ⟨1, [5]⟩), (0, ⟨9, [1]⟩)])
          (minusOne, opposite_sign_int [-3]) = (minusOne, minusOne)
      ∧ minusOne ≠ sign_int [-3]
      ∧ iterative_simplex_roots inOrder test_1d [1] negKeyTable
          = .ok (9, [3], [(minusOne, ⟨1, [5]⟩), (0, ⟨9, [1]⟩)])
      ∧ iterative_simplex_roots reverseOrder test_1d [1] negKeyTable
          = .ok (9, [3], [(minusOne, ⟨1, [5]⟩), (0, ⟨9, [1]⟩)]) := by
  decide!

/-- A step at a point where the output of `f` has a non-negative opposite
signature does not return the lookup-table error, whatever the table. -/
theorem step_no_emptyLookup_at (range : RangeOracle)
    (f : VectorValuedFunction) (x : Vec) (lt : Table)
    (hx : ∀ v, f x = .ok v → v.length < 64 ∨ 0 < v.getD 63 0) (a b c : Nat) :
    iterative_simplex_roots range f x lt ≠ .error (.emptyLookup a b c) := by
  unfold iterative_simplex_roots
  cases hv : f x with
  | error e => simp
  | ok v =>
    simp only
    split
    · simp
    · split
      · simp
      · have hperm := range.2
          (insert_into_lookup_table lt x (sign_int v) (SquaredMagnitude v))
        have hkey : (fallbackScan (sign_int v)
            (range.1 (insert_into_lookup_table lt x (sign_int v)
              (SquaredMagnitude v)))
            (minusOne, opposite_sign_int v)).1
            ∈ keys (insert_into_lookup_table lt x (sign_int v)
              (SquaredMagnitude v)) := by
          apply fallbackScan_takes_key
          · intro k hk
            exact hperm.mem_iff.mp hk
          · exact hperm.mem_iff.mpr
              ((mem_keys_insert lt x (sign_int v) _ (sign_int v)).mpr
                (Or.inl rfl))
          · rw [asInt64_of_lt _ (opposite_sign_int_nonneg v (hx v hv))]
            exact Int.natCast_nonneg _
        split
        · simp
        · rename_i hnone
          exact absurd hkey ((tlookup_eq_none_iff _ _).mp hnone)

theorem TableLen_insert (n : Nat) (lt : Table) (p : Vec) (s : Nat) (m : ℚ)
    (hlt : TableLen n lt) (hp : p.length = n) :
    TableLen n (insert_into_lookup_table lt p s m) := by
  intro e he
  rcases mem_insert lt p s m e he with h | h
  · exact hlt e h
  · rw [h]
    exact hp

theorem TableLen_nil (n : Nat) : TableLen n [] := by
  intro e he
  cases he

theorem step_TableLen (n : Nat) (range : RangeOracle)
    (f : VectorValuedFunction) (x : Vec) (lt : Table) (r : ℚ × Vec × Table)
    (hx : x.length = n) (hlt : TableLen n lt)
    (h : iterative_simplex_roots range f x lt = .ok r) :
    r.2.1.length = n ∧ TableLen n r.2.2 := by
  obtain ⟨v, _, htab, hnext⟩ := step_ok_cases range f x lt r h
  have ht : TableLen n r.2.2 := by
    rw [htab]
    exact TableLen_insert n lt x _ _ hlt hx
  refine ⟨?_, ht⟩
  rcases hnext with h1 | ⟨k, opp, hopp, h1⟩
  · rw [h1]
    exact hx
  · have hl := ht (k, opp) (tlookup_mem _ k opp hopp)
    simp only at hl
    rw [h1, midpoint_length, hx, hl, Nat.min_self]

theorem seedLoop_TableLen (rnd : Nat → Nat) (f : VectorValuedFunction)
    (bounds : Matrix) (length : Nat) :
    ∀ (is : List Nat) (k : Nat) (lt : Table) (log : List Vec),
      TableLen bounds.rows lt →
      ∀ lt', (seedLoop rnd f bounds length is k lt log).1 = .ok lt' →
        TableLen bounds.rows lt' := by
  intro is
  induction is with
  | nil =>
    intro k lt log hlt lt' h
    simp only [seedLoop] at h
    cases h
    exact hlt
  | cons i is ih =>
    intro k lt log hlt lt' h
    obtain ⟨c1, c2, _, _⟩ := cornerPair_inv rnd bounds length i k
    cases h1 : f (cornerPair rnd bounds length i k).1 with
    | error e =>
      simp [seedLoop, h1] at h
    | ok lower_res =>
      cases h2 : f (cornerPair rnd bounds length i k).2.1 with
      | error e =>
        simp [seedLoop, h1, h2] at h
      | ok upper_res =>
        simp only [seedLoop, h1, h2] at h
        exact ih _ _ _
          (TableLen_insert _ _ _ _ _ (TableLen_insert _ lt _ _ _ hlt c1) c2)
          lt' h

theorem driverLoop_no_emptyLookup_len (range : Nat → RangeOracle)
    (f : VectorValuedFunction) (n : Nat) (hn : n < 63)
    (hf : ∀ x v, x.length = n → f x = .ok v → v.length = n) (a b c : Nat) :
    ∀ (left iters : Nat) (mag : ℚ) (x : Vec) (lt : Table) (log : List Vec),
      x.length = n → TableLen n lt →
      (driverLoop range f left iters mag x lt log).result
        ≠ .error (.emptyLookup a b c) := by
  intro left
  induction left with
  | zero =>
    intro iters mag x lt log _ _
    rw [driverLoop_zero]
    unfold finish
    simp only
    split <;> simp
  | succ left ih =>
    intro iters mag x lt log hx hlt
    by_cases hm : mag > TOL
    · cases hstep : iterative_simplex_roots (range iters) f x lt with
      | error e =>
        rw [driverLoop_step_error range f left iters mag x lt log hm e hstep]
        intro h
        simp only at h
        cases h
        exact step_no_emptyLookup_at (range iters) f x lt
          (fun v hv => Or.inl (by have := hf x v hx hv; omega)) a b c hstep
      | ok r =>
        rw [driverLoop_step_ok range f left iters mag x lt log hm r hstep]
        obtain ⟨h1, h2⟩ := step_TableLen n (range iters) f x lt r hx hlt hstep
        exact ih _ _ _ _ _ h1 h2
    · rw [driverLoop_done range f _ iters mag x lt log hm]
      simp

/-- C16: for every `f` that maps vectors of dimension `n < 63` to vectors of
dimension `n`, every `x` of dimension `n` and every input table, the empty
one included, `iterative_simplex_roots` never returns the "lookup table
should be pre-populated" error, for every map iteration order; and therefore
`SimplexRoots` never returns it, for any initial point of dimension `n`, any
bounds, any random outcome and any map iteration order. -/
theorem lookup_error_unreachable_below_63 (f : VectorValuedFunction) (n : Nat)
    (hn : n < 63) (hf : ∀ x v, x.length = n → f x = .ok v → v.length = n) :
    (∀ (range : RangeOracle) (x : Vec) (lt : Table) (a b c : Nat),
        x.length = n →
        iterative_simplex_roots range f x lt ≠ .error (.emptyLookup a b c))
      ∧ ∀ (rnd : Nat → Nat) (range : Nat → RangeOracle) (x0 : Vec)
          (bounds : Matrix) (a b c : Nat), x0.length = n →
          SimplexRoots rnd range f x0 bounds ≠ .error (.emptyLookup a b c) := by
  constructor
  · intro range x lt a b c hx
    exact step_no_emptyLookup_at range f x lt
      (fun v hv => Or.inl (by have := hf x v hx hv; omega)) a b c
  · intro rnd range x0 bounds a b c hx0
    rw [SimplexRoots_eq_result]
    by_cases hr : bounds.rows = x0.length
    · by_cases hc : bounds.cols = 2
      · cases h0 : f x0 with
        | error e =>
          rw [run_eval_error rnd range f x0 bounds hr hc e h0]
          simp
        | ok output =>
          rcases hs : seedLoop rnd f bounds x0.length (List.range x0.length) 0
              [] [x0] with ⟨res, log⟩
          cases res with
          | error e =>
            rw [run_seed_error rnd range f x0 bounds hr hc output h0 e log hs]
            obtain ⟨msg, hmsg⟩ := seedLoop_error_is_eval rnd f bounds x0.length
              (List.range x0.length) 0 [] [x0] e (by rw [hs])
            rw [hmsg]
            simp
          | ok lt =>
            rw [run_seeded rnd range f x0 bounds hr hc output h0 lt log hs]
            have hlt : TableLen bounds.rows lt :=
              seedLoop_TableLen rnd f bounds x0.length (List.range x0.length) 0
                [] [x0] (TableLen_nil _) lt (by rw [hs])
            rw [hr, hx0] at hlt
            exact driverLoop_no_emptyLookup_len range f n hn hf a b c _ _ _ _
              _ _ hx0 hlt
      · rw [run_cols rnd range f x0 bounds hr hc]
        simp
    · rw [run_rows rnd range f x0 bounds hr]
      simp

theorem test_1d_dim_one :
    ∀ x v, x.length = 1 → test_1d x = .ok v → v.length = 1 := by
  intro x v _ h
  simp only [test_1d] at h
  cases h
  rfl

/-- Witness for C16: `test_1d` (dimension 1) at the point `1`, on the empty
table and on a table with an entry under the key `-1`. -/
theorem lookup_error_unreachable_below_63_witness :
    (1 < 63)
      ∧ (∀ x v, x.length = 1 → test_1d x = .ok v → v.length = 1)
      ∧ ([1] : Vec).length = 1
      ∧ iterative_simplex_roots inOrder test_1d [1] []
          ≠ .error (.emptyLookup 0 minusOne 1)
      ∧ iterative_simplex_roots inOrder test_1d [1] negKeyTable
          ≠ .error (.emptyLookup 0 minusOne 1) :=
  ⟨by decide, test_1d_dim_one, rfl,
    (lookup_error_unreachable_below_63 test_1d 1 (by decide)
      test_1d_dim_one).1 inOrder [1] [] 0 minusOne 1 rfl,
    (lookup_error_unreachable_below_63 test_1d 1 (by decide)
      test_1d_dim_one).1 inOrder [1] negKeyTable 0 minusOne 1 rfl⟩

end Rootfinding
